import Mathlib

/-!
Verification of the uplink normalization & ingestion engine of the
ttn-chirpstack-webhook repository (src/src/db.ts and the express server file).

The TypeScript sources are shallowly embedded: JavaScript numbers are modelled
by an inductive `JsNum` (a finite rational or one of NaN / +Infinity /
-Infinity), SQLite tables by Lean lists of row structures with the upsert
(`ON CONFLICT ... DO UPDATE`) semantics made explicit, and the JSON documents
handled by the normalizer by an inductive `JsVal`.  External library
behaviour (SQLite conflict resolution, `Intl` date formatting, `Date`
parsing, `Number(string)`, `Buffer.from(_, "base64")`) is modelled by
explicit Lean functions or by function parameters, as noted at each
definition.
-/

set_option maxHeartbeats 1000000

namespace TTN

/-- Model of a JavaScript number: a finite value (as a rational) or one of
the non-finite values `NaN`, `Infinity`, `-Infinity`. -/
inductive JsNum where
  | finite (q : ℚ)
  | nan
  | posInf
  | negInf
deriving DecidableEq

/-- Model of `Number.isFinite`. -/
def JsNum.isFinite : JsNum → Bool
  | .finite _ => true
  | _ => false

/-- Model of `Math.round` on a finite value: round half toward +∞. -/
def jsRound (q : ℚ) : ℤ := ⌊q + 1/2⌋

/-- The sanitization applied by `storeReading` / `storeUplink` in db.ts to
`battery_mv` and `rssi`: a finite number is rounded to an integer, anything
else (null, NaN, ±Infinity) becomes null. -/
def sanitizeIntField : Option JsNum → Option ℤ
  | some (.finite q) => some (jsRound q)
  | _ => none

/-- The sanitization applied in db.ts to `snr` (and to `meter_value` in
`storeUplink`): a finite number is kept, anything else becomes null. -/
def sanitizeNumField : Option JsNum → Option ℚ
  | some (.finite q) => some q
  | _ => none

/-- A raw meter value as it appears before stringification:
`string | number` (null is represented by `Option` around this type). -/
def RawVal : Type := String ⊕ JsNum

instance : DecidableEq RawVal := by
  unfold RawVal
  infer_instance

/-- Model of the JS conversion `String(x)` on a string-or-number value.
Number formatting is external runtime behaviour; finite values are rendered
via `Rat` printing, which is a stand-in for JS number formatting (no claim
depends on the exact digits). -/
def jsStringOfRaw : RawVal → String
  | .inl s => s
  | .inr (.finite q) => toString q
  | .inr .nan => "NaN"
  | .inr .posInf => "Infinity"
  | .inr .negInf => "-Infinity"

/-! ### The ingestion store (src/src/db.ts)

The two tables are modelled as lists of rows.  The unique indexes
`idx_readings_dev_at` on `readings(dev_eui, at)` and `idx_uplinks_dev_dedup`
on `uplinks(dev_eui, deduplication_id)` turn the `INSERT ... ON CONFLICT ...
DO UPDATE` statements into list upserts: replace the conflicting row in
place (keeping its `id`) or append a fresh row. -/

/-- `StoreReadingInput` from db.ts.  `meter_value` is `number` (any JS
number), the nullable numeric fields are `number | null`. -/
structure StoreReadingInput where
  dev_eui : String
  atIso : String
  meter_value : JsNum
  meter_value_raw : Option RawVal
  device_name : Option String
  application_id : Option String
  application_name : Option String
  deduplication_id : Option String
  battery_mv : Option JsNum
  rssi : Option JsNum
  snr : Option JsNum
deriving DecidableEq

/-- `StoreUplinkInput` from db.ts.  `decoded_json` / `payload_json` are
arbitrary JSON values in TS; `JSON.stringify` is external, so they are
modelled as their already-serialized text. -/
structure StoreUplinkInput where
  dev_eui : String
  atIso : String
  provider : Option String
  device_name : Option String
  application_id : Option String
  application_name : Option String
  deduplication_id : Option String
  meter_value : Option JsNum
  meter_value_raw : Option RawVal
  battery_mv : Option JsNum
  rssi : Option JsNum
  snr : Option JsNum
  decoded_json : Option String
  payload_json : Option String
deriving DecidableEq

/-- A persisted row of the `readings` table.  `meter_value` is declared
`REAL NOT NULL`; `storeReading` passes the input value through without a
finiteness check, so the row carries an arbitrary `JsNum`. -/
structure ReadingRow where
  dev_eui : String
  atIso : String
  meter_value : JsNum
  meter_value_raw : Option String
  device_name : Option String
  application_id : Option String
  application_name : Option String
  deduplication_id : Option String
  battery_mv : Option ℤ
  rssi : Option ℤ
  snr : Option ℚ
deriving DecidableEq

/-- A persisted row of the `uplinks` table (after the sanitization in
`storeUplink`, which never binds a non-finite number). -/
structure UplinkRow where
  id : ℕ
  dev_eui : String
  atIso : String
  provider : Option String
  device_name : Option String
  application_id : Option String
  application_name : Option String
  deduplication_id : String
  meter_value : Option ℚ
  meter_value_raw : Option String
  battery_mv : Option ℤ
  rssi : Option ℤ
  snr : Option ℚ
  decoded_json : Option String
  payload_json : Option String
deriving DecidableEq

/-- The `uplinks` table: its rows plus the AUTOINCREMENT counter for `id`. -/
structure UplinkTable where
  rows : List UplinkRow
  nextId : ℕ
deriving DecidableEq

/-- Generic list upsert, the shape shared by both `ON CONFLICT` statements:
if some row satisfies the key predicate `p`, every such row is rewritten in
place by `f`; otherwise `new` is appended. -/
def upsertBy {α : Type} (p : α → Bool) (f : α → α) (new : α) (l : List α) : List α :=
  if l.any p then l.map (fun a => if p a then f a else a) else l ++ [new]

/-- Key predicate of the `readings` unique index `(dev_eui, at)`. -/
def matchR (d a : String) (r : ReadingRow) : Bool :=
  r.dev_eui == d && r.atIso == a

/-- Key predicate of the `uplinks` unique index `(dev_eui, deduplication_id)`. -/
def matchU (d dd : String) (r : UplinkRow) : Bool :=
  r.dev_eui == d && r.deduplication_id == dd

/-- The row contents that `storeReading` binds (db.ts lines 235-277):
`meter_value` passes through unchanged, `meter_value_raw` is stringified,
`battery_mv` / `rssi` are finite-checked and rounded, `snr` is
finite-checked. -/
def readingOfInput (i : StoreReadingInput) : ReadingRow :=
  { dev_eui := i.dev_eui
    atIso := i.atIso
    meter_value := i.meter_value
    meter_value_raw := i.meter_value_raw.map jsStringOfRaw
    device_name := i.device_name
    application_id := i.application_id
    application_name := i.application_name
    deduplication_id := i.deduplication_id
    battery_mv := sanitizeIntField i.battery_mv
    rssi := sanitizeIntField i.rssi
    snr := sanitizeNumField i.snr }

/-- `storeReading` (db.ts): upsert on `(dev_eui, at)`; on conflict every
non-key column is overwritten with the new values. -/
def storeReading (i : StoreReadingInput) (tbl : List ReadingRow) : List ReadingRow :=
  upsertBy (matchR i.dev_eui i.atIso) (fun _ => readingOfInput i) (readingOfInput i) tbl

/-- The deduplication id actually written by `storeUplink` (db.ts lines
303-306): a null or empty inbound id is replaced by the synthesized
`"<dev_eui>:<at>"`. -/
def resolvedDedup (i : StoreUplinkInput) : String :=
  match i.deduplication_id with
  | none => i.dev_eui ++ ":" ++ i.atIso
  | some s => if s = "" then i.dev_eui ++ ":" ++ i.atIso else s

/-- The row contents that `storeUplink` binds (db.ts lines 279-324), with
the given `id`.  `meter_value`, `battery_mv`, `rssi`, `snr` are
finite-checked (non-finite becomes null), `battery_mv` and `rssi` are
rounded. -/
def uplinkOfInput (i : StoreUplinkInput) (idv : ℕ) : UplinkRow :=
  { id := idv
    dev_eui := i.dev_eui
    atIso := i.atIso
    provider := i.provider
    device_name := i.device_name
    application_id := i.application_id
    application_name := i.application_name
    deduplication_id := resolvedDedup i
    meter_value := sanitizeNumField i.meter_value
    meter_value_raw := i.meter_value_raw.map jsStringOfRaw
    battery_mv := sanitizeIntField i.battery_mv
    rssi := sanitizeIntField i.rssi
    snr := sanitizeNumField i.snr
    decoded_json := i.decoded_json
    payload_json := i.payload_json }

/-- `storeUplink` (db.ts): upsert on `(dev_eui, deduplication_id)`; on
conflict every column except the immutable `id` (and the key columns, which
are equal anyway) is overwritten with the new values. -/
def storeUplink (i : StoreUplinkInput) (t : UplinkTable) : UplinkTable :=
  if t.rows.any (matchU i.dev_eui (resolvedDedup i)) then
    { t with rows := t.rows.map (fun r =>
        if matchU i.dev_eui (resolvedDedup i) r then uplinkOfInput i r.id else r) }
  else
    { rows := t.rows ++ [uplinkOfInput i t.nextId], nextId := t.nextId + 1 }

/-- The unique index on `readings(dev_eui, at)`: at most one row per key. -/
def UniqueR (tbl : List ReadingRow) : Prop :=
  ∀ d a : String, (tbl.countP (matchR d a)) ≤ 1

/-- The unique index on `uplinks(dev_eui, deduplication_id)`. -/
def UniqueU (t : UplinkTable) : Prop :=
  ∀ d dd : String, (t.rows.countP (matchU d dd)) ≤ 1

/-! ### Generic facts about the upsert shape -/

theorem find?_map_if {α : Type} (p : α → Bool) (f : α → α)
    (hf : ∀ a, p a = true → p (f a) = true) :
    ∀ l : List α,
      (l.map (fun a => if p a then f a else a)).find? p = (l.find? p).map f
  | [] => rfl
  | a :: l => by
    by_cases hpa : p a = true
    · simp [List.find?_cons, hpa, hf a hpa]
    · have hpa' : p a = false := by simpa using hpa
      simp [List.find?_cons, hpa', find?_map_if p f hf l]

theorem countP_map_if {α : Type} (p : α → Bool) (f : α → α)
    (hf : ∀ a, p a = true → p (f a) = true) :
    ∀ l : List α,
      (l.map (fun a => if p a then f a else a)).countP p = l.countP p
  | [] => rfl
  | a :: l => by
    by_cases hpa : p a = true
    · simp [List.countP_cons, hpa, hf a hpa, countP_map_if p f hf l]
    · have hpa' : p a = false := by simpa using hpa
      simp [List.countP_cons, hpa', countP_map_if p f hf l]

theorem find?_append_single {α : Type} (p : α → Bool) (x : α) (hx : p x = true) :
    ∀ l : List α, l.any p = false → (l ++ [x]).find? p = some x
  | [], _ => by simp [List.find?_cons, hx]
  | a :: l, h => by
    have ha : p a = false := by
      cases hpa : p a
      · rfl
      · exact absurd (List.any_eq_true.mpr ⟨a, List.mem_cons_self a l, hpa⟩) (by simp [h])
    have hl : l.any p = false := by
      cases hl' : l.any p
      · rfl
      · obtain ⟨b, hb, hpb⟩ := List.any_eq_true.mp hl'
        exact absurd (List.any_eq_true.mpr ⟨b, List.mem_cons_of_mem a hb, hpb⟩) (by simp [h])
    simp [List.find?_cons, ha, find?_append_single p x hx l hl]

theorem upsertBy_find? {α : Type} (p : α → Bool) (f : α → α) (new : α) (l : List α)
    (hf : ∀ a, p a = true → p (f a) = true) (hnew : p new = true) :
    (upsertBy p f new l).find? p
      = some (match l.find? p with | some a => f a | none => new) := by
  unfold upsertBy
  by_cases h : l.any p = true
  · rw [if_pos h, find?_map_if p f hf l]
    obtain ⟨a, ha, hpa⟩ := List.any_eq_true.mp h
    have : (l.find? p).isSome := List.find?_isSome.mpr ⟨a, ha, hpa⟩
    obtain ⟨b, hb⟩ := Option.isSome_iff_exists.mp this
    rw [hb]
    rfl
  · rw [if_neg h, find?_append_single p new hnew l (by simpa using h)]
    have : l.find? p = none := List.find?_eq_none.mpr (fun a ha hpa =>
      h (List.any_eq_true.mpr ⟨a, ha, hpa⟩))
    rw [this]

theorem upsertBy_countP {α : Type} (p : α → Bool) (f : α → α) (new : α) (l : List α)
    (hf : ∀ a, p a = true → p (f a) = true) (hnew : p new = true) :
    (upsertBy p f new l).countP p
      = if l.any p = true then l.countP p else l.countP p + 1 := by
  unfold upsertBy
  by_cases h : l.any p = true
  · rw [if_pos h, if_pos h, countP_map_if p f hf l]
  · rw [if_neg h, if_neg h, List.countP_append]
    simp [List.countP_cons, hnew]

theorem upsertBy_mem {α : Type} (p : α → Bool) (f : α → α) (new : α) (l : List α)
    (a : α) (ha : a ∈ upsertBy p f new l) :
    a ∈ l ∨ (∃ b ∈ l, a = f b) ∨ a = new := by
  unfold upsertBy at ha
  by_cases h : l.any p = true
  · rw [if_pos h] at ha
    obtain ⟨b, hb, hab⟩ := List.mem_map.mp ha
    by_cases hpb : p b = true
    · exact Or.inr (Or.inl ⟨b, hb, by rw [← hab, if_pos hpb]⟩)
    · left
      rw [← hab, if_neg hpb]
      exact hb
  · rw [if_neg h] at ha
    rcases List.mem_append.mp ha with h' | h'
    · exact Or.inl h'
    · exact Or.inr (Or.inr (by simpa using h'))

/-! ### Single-store lemmas -/

theorem matchU_uplinkOfInput (i : StoreUplinkInput) (n : ℕ) :
    matchU i.dev_eui (resolvedDedup i) (uplinkOfInput i n) = true := by
  simp [matchU, uplinkOfInput]

theorem matchR_readingOfInput (i : StoreReadingInput) :
    matchR i.dev_eui i.atIso (readingOfInput i) = true := by
  simp [matchR, readingOfInput]

theorem storeUplink_rows (i : StoreUplinkInput) (t : UplinkTable) :
    (storeUplink i t).rows
      = upsertBy (matchU i.dev_eui (resolvedDedup i)) (fun r => uplinkOfInput i r.id)
          (uplinkOfInput i t.nextId) t.rows := by
  unfold storeUplink upsertBy
  by_cases h : t.rows.any (matchU i.dev_eui (resolvedDedup i)) = true
  · simp [h]
  · simp [h]

theorem storeUplink_find? (i : StoreUplinkInput) (t : UplinkTable) :
    (storeUplink i t).rows.find? (matchU i.dev_eui (resolvedDedup i))
      = some (uplinkOfInput i
          (match t.rows.find? (matchU i.dev_eui (resolvedDedup i)) with
           | some r => r.id | none => t.nextId)) := by
  rw [storeUplink_rows,
    upsertBy_find? _ _ _ _ (fun a _ => matchU_uplinkOfInput i a.id) (matchU_uplinkOfInput i t.nextId)]
  cases h : t.rows.find? (matchU i.dev_eui (resolvedDedup i)) <;> rfl

theorem storeUplink_countP (i : StoreUplinkInput) (t : UplinkTable) :
    (storeUplink i t).rows.countP (matchU i.dev_eui (resolvedDedup i))
      = if t.rows.any (matchU i.dev_eui (resolvedDedup i)) = true
        then t.rows.countP (matchU i.dev_eui (resolvedDedup i))
        else t.rows.countP (matchU i.dev_eui (resolvedDedup i)) + 1 := by
  rw [storeUplink_rows,
    upsertBy_countP _ _ _ _ (fun a _ => matchU_uplinkOfInput i a.id) (matchU_uplinkOfInput i t.nextId)]

theorem storeReading_find? (i : StoreReadingInput) (tbl : List ReadingRow) :
    (storeReading i tbl).find? (matchR i.dev_eui i.atIso) = some (readingOfInput i) := by
  unfold storeReading
  rw [upsertBy_find? _ _ _ _ (fun _ _ => matchR_readingOfInput i) (matchR_readingOfInput i)]
  cases h : tbl.find? (matchR i.dev_eui i.atIso) <;> rfl

theorem storeReading_countP (i : StoreReadingInput) (tbl : List ReadingRow) :
    (storeReading i tbl).countP (matchR i.dev_eui i.atIso)
      = if tbl.any (matchR i.dev_eui i.atIso) = true
        then tbl.countP (matchR i.dev_eui i.atIso)
        else tbl.countP (matchR i.dev_eui i.atIso) + 1 := by
  unfold storeReading
  rw [upsertBy_countP _ _ _ _ (fun _ _ => matchR_readingOfInput i) (matchR_readingOfInput i)]

theorem countP_one_of_le_one {α : Type} (p : α → Bool) (l : List α)
    (hle : l.countP p ≤ 1) :
    (if l.any p = true then l.countP p else l.countP p + 1) = 1 := by
  by_cases h : l.any p = true
  · obtain ⟨a, ha, hpa⟩ := List.any_eq_true.mp h
    have : 0 < l.countP p := List.countP_pos.mpr ⟨a, ha, hpa⟩
    rw [if_pos h]
    omega
  · have : l.countP p = 0 := by
      apply List.countP_eq_zero.mpr
      intro a ha hpa
      exact h (List.any_eq_true.mpr ⟨a, ha, hpa⟩)
    rw [if_neg h]
    omega

theorem any_of_countP_one {α : Type} (p : α → Bool) (l : List α)
    (h1 : l.countP p = 1) : l.any p = true := by
  have : 0 < l.countP p := by omega
  obtain ⟨a, ha, hpa⟩ := List.countP_pos.mp this
  exact List.any_eq_true.mpr ⟨a, ha, hpa⟩

/-- C1: storing the same normalized uplink twice (`storeUplink` twice on the
same `(dev_eui, deduplication_id)` key, `storeReading` twice on the same
`(dev_eui, at)` key) leaves exactly one `uplinks` row and exactly one
`readings` row for the key; the second write's values overwrite every
mutable column while the `id` assigned by the first write is unchanged; and
a null or empty inbound deduplication id is replaced by the synthesized
`"<dev_eui>:<at>"`. -/
theorem store_twice_idempotent
    (i₁ i₂ : StoreUplinkInput) (t : UplinkTable)
    (j₁ j₂ : StoreReadingInput) (tbl : List ReadingRow)
    (hdU : i₁.dev_eui = i₂.dev_eui) (hkU : resolvedDedup i₁ = resolvedDedup i₂)
    (hdR : j₁.dev_eui = j₂.dev_eui) (haR : j₁.atIso = j₂.atIso)
    (hU : UniqueU t) (hR : UniqueR tbl) :
    ((storeUplink i₂ (storeUplink i₁ t)).rows.countP
        (matchU i₂.dev_eui (resolvedDedup i₂)) = 1)
    ∧ (∃ idv : ℕ,
        (storeUplink i₁ t).rows.find? (matchU i₂.dev_eui (resolvedDedup i₂))
          = some (uplinkOfInput i₁ idv)
        ∧ (storeUplink i₂ (storeUplink i₁ t)).rows.find?
            (matchU i₂.dev_eui (resolvedDedup i₂))
          = some (uplinkOfInput i₂ idv))
    ∧ ((storeReading j₂ (storeReading j₁ tbl)).countP (matchR j₂.dev_eui j₂.atIso) = 1)
    ∧ ((storeReading j₂ (storeReading j₁ tbl)).find? (matchR j₂.dev_eui j₂.atIso)
        = some (readingOfInput j₂))
    ∧ ((i₂.deduplication_id = none ∨ i₂.deduplication_id = some "") →
        resolvedDedup i₂ = i₂.dev_eui ++ ":" ++ i₂.atIso) := by
  have hpe : matchU i₁.dev_eui (resolvedDedup i₁) = matchU i₂.dev_eui (resolvedDedup i₂) := by
    rw [hdU, hkU]
  have hre : matchR j₁.dev_eui j₁.atIso = matchR j₂.dev_eui j₂.atIso := by
    rw [hdR, haR]
  have h1 := storeUplink_countP i₁ t
  have hf1 := storeUplink_find? i₁ t
  rw [hpe] at h1 hf1
  have hcount1 : (storeUplink i₁ t).rows.countP (matchU i₂.dev_eui (resolvedDedup i₂)) = 1 := by
    rw [h1]
    exact countP_one_of_le_one _ _ (hkU ▸ hdU ▸ hU i₁.dev_eui (resolvedDedup i₁))
  have hany1 := any_of_countP_one _ _ hcount1
  have h2 := storeUplink_countP i₂ (storeUplink i₁ t)
  have hf2 := storeUplink_find? i₂ (storeUplink i₁ t)
  have hcount2 : (storeUplink i₂ (storeUplink i₁ t)).rows.countP
      (matchU i₂.dev_eui (resolvedDedup i₂)) = 1 := by
    rw [h2, if_pos hany1, hcount1]
  have hr1 := storeReading_countP j₁ tbl
  have hrf1 := storeReading_find? j₁ tbl
  rw [hre] at hr1 hrf1
  have hrcount1 : (storeReading j₁ tbl).countP (matchR j₂.dev_eui j₂.atIso) = 1 := by
    rw [hr1]
    exact countP_one_of_le_one _ _ (haR ▸ hdR ▸ hR j₁.dev_eui j₁.atIso)
  have hrany1 := any_of_countP_one _ _ hrcount1
  have hr2 := storeReading_countP j₂ (storeReading j₁ tbl)
  have hrcount2 : (storeReading j₂ (storeReading j₁ tbl)).countP
      (matchR j₂.dev_eui j₂.atIso) = 1 := by
    rw [hr2, if_pos hrany1, hrcount1]
  refine ⟨hcount2, ⟨?_, ?_, ?_⟩, hrcount2, storeReading_find? j₂ _, ?_⟩
  · exact (match t.rows.find? (matchU i₂.dev_eui (resolvedDedup i₂)) with
      | some r => r.id | none => t.nextId)
  · exact hf1
  · rw [hf2, hf1]
    rfl
  · intro h
    rcases h with h | h <;> simp [resolvedDedup, h]

/-- First delivery of a concrete uplink (empty dedup id, so the store
synthesizes one). -/
def exU1 : StoreUplinkInput :=
  { dev_eui := "aa", atIso := "t1", provider := some "ttn",
    device_name := some "n1", application_id := none, application_name := none,
    deduplication_id := some "", meter_value := some (.finite 6),
    meter_value_raw := some (.inl "6"), battery_mv := none, rssi := none,
    snr := none, decoded_json := none, payload_json := none }

/-- Redelivery of the same uplink with fresher values (null dedup id). -/
def exU2 : StoreUplinkInput :=
  { dev_eui := "aa", atIso := "t1", provider := some "ttn",
    device_name := some "n2", application_id := none, application_name := none,
    deduplication_id := none, meter_value := some (.finite 7),
    meter_value_raw := some (.inl "7"), battery_mv := none, rssi := none,
    snr := none, decoded_json := none, payload_json := none }

/-- First delivery of a concrete reading. -/
def exR1 : StoreReadingInput :=
  { dev_eui := "aa", atIso := "t1", meter_value := .finite 6,
    meter_value_raw := none, device_name := none, application_id := none,
    application_name := none, deduplication_id := none, battery_mv := none,
    rssi := none, snr := none }

/-- Redelivery of the same reading with a fresher value. -/
def exR2 : StoreReadingInput :=
  { dev_eui := "aa", atIso := "t1", meter_value := .finite 7,
    meter_value_raw := none, device_name := none, application_id := none,
    application_name := none, deduplication_id := none, battery_mv := none,
    rssi := none, snr := none }

/-- Concrete instantiation of `store_twice_idempotent`: two deliveries of the
same uplink (the second with fresher values) on initially empty tables. -/
theorem store_twice_idempotent_witness :
    ((storeUplink exU2 (storeUplink exU1 ⟨[], 0⟩)).rows.countP
        (matchU exU2.dev_eui (resolvedDedup exU2)) = 1)
    ∧ (∃ idv : ℕ,
        (storeUplink exU1 ⟨[], 0⟩).rows.find? (matchU exU2.dev_eui (resolvedDedup exU2))
          = some (uplinkOfInput exU1 idv)
        ∧ (storeUplink exU2 (storeUplink exU1 ⟨[], 0⟩)).rows.find?
            (matchU exU2.dev_eui (resolvedDedup exU2))
          = some (uplinkOfInput exU2 idv))
    ∧ ((storeReading exR2 (storeReading exR1 [])).countP
        (matchR exR2.dev_eui exR2.atIso) = 1)
    ∧ ((storeReading exR2 (storeReading exR1 [])).find? (matchR exR2.dev_eui exR2.atIso)
        = some (readingOfInput exR2))
    ∧ ((exU2.deduplication_id = none ∨ exU2.deduplication_id = some "") →
        resolvedDedup exU2 = exU2.dev_eui ++ ":" ++ exU2.atIso) :=
  store_twice_idempotent exU1 exU2 ⟨[], 0⟩ exR1 exR2 []
    (by decide) (by decide) (by decide) (by decide)
    (fun _ _ => Nat.zero_le 1) (fun _ _ => Nat.zero_le 1)

/-- C10 (amended): every row persisted by `storeUplink` or `storeReading` is
either a pre-existing row or carries the sanitized values of the input:
`battery_mv` and `rssi` are null or the input rounded to an integer, and a
non-finite `battery_mv`, `rssi` or `snr` — plus, in `storeUplink` only, a
non-finite `meter_value` — is stored as null.  `storeReading` stores
`meter_value` exactly as passed in, without a finiteness check. -/
theorem store_sanitizes_numeric_fields :
    (∀ (i : StoreUplinkInput) (t : UplinkTable),
      ∀ r ∈ (storeUplink i t).rows, r ∈ t.rows ∨
        (r.meter_value = sanitizeNumField i.meter_value
          ∧ r.battery_mv = sanitizeIntField i.battery_mv
          ∧ r.rssi = sanitizeIntField i.rssi
          ∧ r.snr = sanitizeNumField i.snr))
    ∧ (∀ (i : StoreReadingInput) (tbl : List ReadingRow),
      ∀ r ∈ storeReading i tbl, r ∈ tbl ∨
        (r.meter_value = i.meter_value
          ∧ r.battery_mv = sanitizeIntField i.battery_mv
          ∧ r.rssi = sanitizeIntField i.rssi
          ∧ r.snr = sanitizeNumField i.snr))
    ∧ (∀ j : JsNum, j.isFinite = false →
        sanitizeIntField (some j) = none ∧ sanitizeNumField (some j) = none)
    ∧ (∀ q : ℚ, sanitizeIntField (some (JsNum.finite q)) = some (jsRound q)
        ∧ sanitizeNumField (some (JsNum.finite q)) = some q)
    ∧ sanitizeIntField none = none ∧ sanitizeNumField none = none := by
  refine ⟨?_, ?_, ?_, fun q => ⟨rfl, rfl⟩, rfl, rfl⟩
  · intro i t r hr
    rw [storeUplink_rows] at hr
    rcases upsertBy_mem _ _ _ _ _ hr with h | ⟨b, _, h⟩ | h
    · exact Or.inl h
    · exact Or.inr (by rw [h]; exact ⟨rfl, rfl, rfl, rfl⟩)
    · exact Or.inr (by rw [h]; exact ⟨rfl, rfl, rfl, rfl⟩)
  · intro i tbl r hr
    rcases upsertBy_mem _ _ _ _ _ hr with h | ⟨b, _, h⟩ | h
    · exact Or.inl h
    · exact Or.inr (by rw [h]; exact ⟨rfl, rfl, rfl, rfl⟩)
    · exact Or.inr (by rw [h]; exact ⟨rfl, rfl, rfl, rfl⟩)
  · intro j hj
    cases j with
    | finite q => simp [JsNum.isFinite] at hj
    | nan => exact ⟨rfl, rfl⟩
    | posInf => exact ⟨rfl, rfl⟩
    | negInf => exact ⟨rfl, rfl⟩

/-- Concrete instantiation of `store_sanitizes_numeric_fields` at the
non-finite value NaN. -/
theorem store_sanitizes_numeric_fields_witness :
    sanitizeIntField (some JsNum.nan) = none ∧ sanitizeNumField (some JsNum.nan) = none :=
  store_sanitizes_numeric_fields.2.2.1 JsNum.nan rfl

/-- A reading input whose meter value is `Infinity` (db.ts performs no
finiteness check on `storeReading`'s `meter_value`). -/
def exRInf : StoreReadingInput :=
  { dev_eui := "dd", atIso := "t9", meter_value := .posInf,
    meter_value_raw := none, device_name := none, application_id := none,
    application_name := none, deduplication_id := none, battery_mv := none,
    rssi := none, snr := none }

/-- C10 counterexample: `storeReading` persists a non-finite `meter_value`
as the non-finite value itself, not as null — the sanitization at db.ts
lines 249-262 covers `battery_mv`, `rssi` and `snr` but not `meter_value`,
which line 238 passes through unchanged. -/
theorem storeReading_keeps_nonfinite_meter :
    (storeReading exRInf []).map ReadingRow.meter_value = [JsNum.posInf]
    ∧ JsNum.posInf.isFinite = false := by
  constructor
  · rfl
  · rfl

/-! ### JSON documents and the meter-parsing chain (server file, part_000) -/

/-- A JSON-like JavaScript value as handled by the normalizer. -/
inductive JsVal where
  | str (s : String)
  | num (n : JsNum)
  | boolean (b : Bool)
  | null
  | arr (elems : List JsVal)
  | obj (fields : List (String × JsVal))

/-- ASCII whitespace trimmed by `String.prototype.trim` (the JS spec also
trims further Unicode space characters, which no claim exercises). -/
def isJsWhitespace (c : Char) : Bool :=
  c = ' ' || c = '\t' || c = '\n' || c = '\r' || c = '\x0b' || c = '\x0c'

/-- Model of `String.prototype.trim`. -/
def jsTrim (s : String) : String :=
  ⟨((s.data.dropWhile isJsWhitespace).reverse.dropWhile isJsWhitespace).reverse⟩

/-- Numeric value of a list of decimal digits. -/
def digitsVal (l : List Char) : ℕ :=
  l.foldl (fun n c => 10 * n + (c.toNat - '0'.toNat)) 0

/-- Parse (all of) a decimal literal `digits [. digits]` to a rational.
Returns none if the shape does not match or characters remain.  The value
`intpart.fracpart` is built as `mkRat (intpart * 10^k + fracpart) (10^k)`
(with `k` the number of fraction digits), i.e. intpart + fracpart/10^k. -/
def parseDecCore (l : List Char) : Option ℚ :=
  let intPart := l.takeWhile Char.isDigit
  let rest := l.dropWhile Char.isDigit
  match rest with
  | [] => if intPart = [] then none else some (digitsVal intPart : ℚ)
  | '.' :: rest2 =>
    let fracPart := rest2.takeWhile Char.isDigit
    let rest3 := rest2.dropWhile Char.isDigit
    if rest3 = [] then
      if intPart = [] && fracPart = [] then none
      else some (mkRat (digitsVal intPart * 10 ^ fracPart.length + digitsVal fracPart)
          (10 ^ fracPart.length))
    else none
  | _ => none

/-- Model of the JS builtin `Number(string)`, restricted to optionally
signed decimal literals (JS additionally accepts hex/octal/binary literals,
exponents and `"Infinity"`, which no inspected input exercises): trimmed
empty string is 0, a signed decimal literal is its value, anything else is
NaN. -/
def jsNumber (s : String) : JsNum :=
  match (jsTrim s).data with
  | [] => .finite 0
  | l =>
    let signed : Bool × List Char :=
      match l with
      | '-' :: rest => (true, rest)
      | '+' :: rest => (false, rest)
      | _ => (false, l)
    match parseDecCore signed.2 with
    | some q => .finite (if signed.1 then -q else q)
    | none => .nan

/-- Model of `s.replace(",", ".")`: JS `replace` with a string pattern
replaces only the first occurrence. -/
def replaceFirstComma : List Char → List Char
  | [] => []
  | c :: rest => if c = ',' then '.' :: rest else c :: replaceFirstComma rest

/-- Model of `s.match(/^(\d{5})(\d{1,3})$/)`: an all-digit string of length
6 to 8, split after the fifth digit. -/
def compactMatch (l : List Char) : Option (List Char × List Char) :=
  if l.all Char.isDigit && decide (6 ≤ l.length) && decide (l.length ≤ 8) then
    some (l.take 5, l.drop 5)
  else none

/-- Match of the regex `-?\d+(?:\.\d+)?` anchored at the current
position: optional minus, greedy digits, optionally a dot followed by at
least one greedy digit. -/
def matchNumAt (l : List Char) : Option (List Char) :=
  let signed : Bool × List Char :=
    match l with
    | '-' :: rest => (true, rest)
    | _ => (false, l)
  let ds := signed.2.takeWhile Char.isDigit
  if ds = [] then none
  else
    let sign := if signed.1 then ['-'] else []
    match signed.2.dropWhile Char.isDigit with
    | '.' :: rest2 =>
      let fs := rest2.takeWhile Char.isDigit
      if fs = [] then some (sign ++ ds) else some (sign ++ ds ++ '.' :: fs)
    | _ => some (sign ++ ds)

/-- Leftmost match of `-?\d+(?:\.\d+)?` in a string (`String.prototype.match`
with a non-global regex returns the leftmost match). -/
def firstNumMatch : List Char → Option (List Char)
  | [] => none
  | c :: rest =>
    match matchNumAt (c :: rest) with
    | some m => some m
    | none => firstNumMatch rest

/-- The result of `parseMeterNumber`: the parsed value and the raw
representation (`string | number | null`). -/
structure MeterParse where
  meterValue : Option ℚ
  meterValueRaw : Option RawVal
deriving DecidableEq

/-- Last fallback of `parseMeterNumber` (part_000 lines 170-176): extract
the first signed decimal number occurring anywhere in the comma-normalized
string; otherwise unparseable, keeping the trimmed string as raw. -/
def meterFallback (s : String) : MeterParse :=
  match firstNumMatch (replaceFirstComma s.data) with
  | some m =>
    match jsNumber ⟨m⟩ with
    | .finite q => ⟨some q, some (.inl s)⟩
    | _ => ⟨none, some (.inl s)⟩
  | none => ⟨none, some (.inl s)⟩

/-- `parseMeterNumber` (part_000 lines 146-180): numbers pass through when
finite; strings are trimmed, then parsed directly (first comma treated as
decimal point), then matched against the 5-digit/1-3-digit regrouping
pattern, then scanned for the first embedded number; anything else is
unparseable. -/
def parseMeterNumber : JsVal → MeterParse
  | .num (.finite q) => ⟨some q, some (.inr (.finite q))⟩
  | .num _ => ⟨none, none⟩
  | .str raw =>
    let s := jsTrim raw
    if s = "" then ⟨none, none⟩
    else
      match jsNumber ⟨replaceFirstComma s.data⟩ with
      | .finite q => ⟨some q, some (.inl s)⟩
      | _ =>
        match compactMatch s.data with
        | some (a, b) =>
          match jsNumber ⟨a ++ '.' :: b⟩ with
          | .finite q => ⟨some q, some (.inl s)⟩
          | _ => meterFallback s
        | none => meterFallback s
  | _ => ⟨none, none⟩

/-- C3 counterexample: the meter-parsing chain maps `"1234567"` to the
number 1234567 — the direct numeric parse succeeds on an all-digit string,
so the value is neither 1234.567 (the claim) nor 12345.67 (regrouping). -/
theorem parseMeterNumber_regroup_cex :
    (parseMeterNumber (.str "1234567")).meterValue = some (1234567 : ℚ)
    ∧ (parseMeterNumber (.str "1234567")).meterValue ≠ some ((1234567 : ℚ) / 1000) := by
  have hv : (parseMeterNumber (.str "1234567")).meterValue = some (1234567 : ℚ) := by
    decide
  refine ⟨hv, ?_⟩
  rw [hv]
  intro h
  have h' := Option.some.inj h
  norm_num at h'

/-- C3 (amended): the meter-parsing chain maps `"1234567"` to 1234567 and
`"123456"` to 123456 (the direct parse wins on all-digit strings, so the
5-digit regrouping branch never fires for them), `"12,5"` to 12.5,
`"abc 42.3 kWh"` to 42.3, and `"garbage"` to an absent value with the raw
representation preserved as `"garbage"`. -/
theorem parseMeterNumber_examples :
    parseMeterNumber (.str "1234567") = ⟨some 1234567, some (.inl "1234567")⟩
    ∧ parseMeterNumber (.str "123456") = ⟨some 123456, some (.inl "123456")⟩
    ∧ parseMeterNumber (.str "12,5") = ⟨some (25/2 : ℚ), some (.inl "12,5")⟩
    ∧ parseMeterNumber (.str "abc 42.3 kWh") = ⟨some (423/10 : ℚ), some (.inl "abc 42.3 kWh")⟩
    ∧ parseMeterNumber (.str "garbage") = ⟨none, some (.inl "garbage")⟩ := by
  have e1 : (25 / 2 : ℚ) = mkRat 25 2 := by
    rw [Rat.mkRat_eq_div]
    norm_num
  have e2 : (423 / 10 : ℚ) = mkRat 423 10 := by
    rw [Rat.mkRat_eq_div]
    norm_num
  refine ⟨by decide, by decide, ?_, ?_, by decide⟩
  · rw [e1]
    decide
  · rw [e2]
    decide

theorem meterFallback_raw (s : String) :
    (meterFallback s).meterValueRaw = some (.inl s) := by
  unfold meterFallback
  split
  · split <;> rfl
  · rfl

/-- C4 counterexample: the pre-parse representation is retained only after
trimming — for input `" garbage "` the raw kept is `"garbage"`, not the
original `" garbage "`, and for the empty string (whose parsing also
fails) nothing is retained at all. -/
theorem parseMeterNumber_raw_not_original :
    (parseMeterNumber (.str " garbage ")).meterValueRaw = some (.inl "garbage")
    ∧ (parseMeterNumber (.str " garbage ")).meterValueRaw ≠ some (.inl " garbage ")
    ∧ (parseMeterNumber (.str "")).meterValueRaw = none := by
  decide

/-- C4 (amended): `parseMeterNumber` is total (modelled as a total Lean
function — no branch can throw), every unparseable input yields an absent
meter value, and the raw representation kept is: the trimmed input for every
string that is non-empty after trimming (whether or not parsing succeeds),
the number itself for finite numeric input, and null for whitespace-only
strings, non-finite numbers, and non-string/non-number values. -/
theorem parseMeterNumber_total_and_raw :
    (∀ q : ℚ, parseMeterNumber (.num (.finite q)) = ⟨some q, some (.inr (.finite q))⟩)
    ∧ (∀ n : JsNum, n.isFinite = false → parseMeterNumber (.num n) = ⟨none, none⟩)
    ∧ (∀ s : String,
        (parseMeterNumber (.str s)).meterValueRaw
          = if jsTrim s = "" then none else some (.inl (jsTrim s)))
    ∧ (∀ b : Bool, parseMeterNumber (.boolean b) = ⟨none, none⟩)
    ∧ parseMeterNumber .null = ⟨none, none⟩
    ∧ (∀ l, parseMeterNumber (.arr l) = ⟨none, none⟩)
    ∧ (∀ f, parseMeterNumber (.obj f) = ⟨none, none⟩) := by
  refine ⟨fun q => rfl, ?_, ?_, fun b => rfl, rfl, fun l => rfl, fun f => rfl⟩
  · intro n hn
    cases n with
    | finite q => simp [JsNum.isFinite] at hn
    | nan => rfl
    | posInf => rfl
    | negInf => rfl
  · intro s
    by_cases h : jsTrim s = ""
    · simp only [parseMeterNumber, h, if_pos]
    · rw [if_neg h]
      simp only [parseMeterNumber]
      rw [if_neg h]
      split
      · rfl
      · split
        · split
          · rfl
          · exact meterFallback_raw _
        · exact meterFallback_raw _

/-- Concrete instantiation of `parseMeterNumber_total_and_raw` at the
non-finite value NaN. -/
theorem parseMeterNumber_total_and_raw_witness :
    parseMeterNumber (.num JsNum.nan) = ⟨none, none⟩ :=
  parseMeterNumber_total_and_raw.2.1 JsNum.nan rfl

/-! ### The field resolver (part_000 lines 62-98) -/

/-- A path segment handed to `getDeep`: string key or numeric index. -/
inductive PathSeg where
  | key (s : String)
  | idx (i : ℤ)

/-- `asRecord` (part_000 lines 72-75): a plain object yields its fields,
everything else (null, scalars, arrays) yields null.  Field lists are the
entry lists of JSON objects, so keys are assumed distinct. -/
def asRecord : JsVal → Option (List (String × JsVal))
  | .obj fields => some fields
  | _ => none

/-- Property access `rec[seg]` on an object's entry list. -/
def lookupField (fields : List (String × JsVal)) (k : String) : Option JsVal :=
  (fields.find? (fun kv => kv.1 == k)).map (fun kv => kv.2)

/-- `getDeep` (part_000 lines 77-90): follow a path of keys/indices;
`none` plays the role of `undefined`. -/
def getDeep : JsVal → List PathSeg → Option JsVal
  | v, [] => some v
  | v, .idx i :: rest =>
    match v with
    | .arr elems =>
      if 0 ≤ i then
        match elems.get? i.toNat with
        | some x => getDeep x rest
        | none => none
      else none
    | _ => none
  | v, .key k :: rest =>
    match asRecord v with
    | some fields =>
      match lookupField fields k with
      | some x => getDeep x rest
      | none => none
    | none => none

/-- Whether a value is the JS `null` literal. -/
def isNullJs : JsVal → Bool
  | .null => true
  | _ => false

/-- `firstDefined` (part_000 lines 92-98): first candidate path whose value
resolves and is neither undefined nor null. -/
def firstDefined (obj : JsVal) : List (List PathSeg) → Option JsVal
  | [] => none
  | p :: rest =>
    match getDeep obj p with
    | some v => if isNullJs v then firstDefined obj rest else some v
    | none => firstDefined obj rest

/-- `numOrNull` (part_000 lines 62-70) applied to a possibly-undefined
value: finite numbers pass, strings are parsed via `Number`, everything
else is null. -/
def numOrNull : Option JsVal → Option ℚ
  | some (.num (.finite q)) => some q
  | some (.str s) =>
    match jsNumber s with
    | .finite q => some q
    | _ => none
  | _ => none

/-! ### Signal selection (part_000 lines 182-197 and 255-261) -/

/-- The per-record RSSI extraction of `bestSignal`:
`numOrNull(firstDefined(item, [["rssi"], ["channel_rssi"]]))`. -/
def extractRssi (item : JsVal) : Option ℚ :=
  numOrNull (firstDefined item [[.key "rssi"], [.key "channel_rssi"]])

/-- The per-record SNR extraction of `bestSignal`:
`numOrNull(firstDefined(item, [["loRaSNR"], ["loraSNR"], ["snr"]]))`. -/
def extractSnr (item : JsVal) : Option ℚ :=
  numOrNull (firstDefined item [[.key "loRaSNR"], [.key "loraSNR"], [.key "snr"]])

/-- The pair of optional signal values. -/
structure Signal where
  rssi : Option ℚ
  snr : Option ℚ
deriving DecidableEq

/-- One iteration of `bestSignal`'s loop: a record with no RSSI is skipped;
otherwise it replaces the accumulator exactly when its RSSI is strictly
greater (`r > bestRssi`), taking its paired SNR along. -/
def bestStep (acc : Signal) (item : JsVal) : Signal :=
  match extractRssi item with
  | none => acc
  | some r =>
    match acc.rssi with
    | none => ⟨some r, extractSnr item⟩
    | some br => if br < r then ⟨some r, extractSnr item⟩ else acc

/-- The loop of `bestSignal` over the merged record list. -/
def bestGo : List JsVal → Signal → Signal
  | [], acc => acc
  | item :: rest, acc => bestGo rest (bestStep acc item)

/-- `bestSignal` (part_000 lines 182-197). -/
def bestSignal (rxItems : List JsVal) : Signal :=
  bestGo rxItems ⟨none, none⟩

/-- The merged gateway-reception list of `parseLoRaPayload` (lines
255-258): `rxInfo` concatenated with `uplink_message.rx_metadata`, each
contributing only when it is an array. -/
def rxCandidates (up : JsVal) : List JsVal :=
  (match getDeep up [PathSeg.key "rxInfo"] with
   | some (.arr xs) => xs
   | _ => []) ++
  (match getDeep up [PathSeg.key "uplink_message", PathSeg.key "rx_metadata"] with
   | some (.arr xs) => xs
   | _ => [])

/-- The normalizer's overall rssi/snr selection (part_000 lines 255-261):
the best-of-records signal, falling back per component to top-level scalar
fields via `??`. -/
def signalOf (up : JsVal) : Signal :=
  let signal := bestSignal (rxCandidates up)
  ⟨match signal.rssi with
    | some r => some r
    | none => numOrNull (firstDefined up
        [[.key "rssi"], [.key "uplink_message", .key "rssi"]]),
   match signal.snr with
    | some s => some s
    | none => numOrNull (firstDefined up
        [[.key "loRaSNR"], [.key "loraSNR"], [.key "snr"],
         [.key "uplink_message", .key "snr"]])⟩

theorem bestGo_cases (l : List JsVal) : ∀ acc : Signal,
    (bestGo l acc = acc
      ∧ ∀ x ∈ l, ∀ rx : ℚ, extractRssi x = some rx →
          ∃ ba, acc.rssi = some ba ∧ rx ≤ ba)
    ∨ (∃ pre it suf, l = pre ++ it :: suf
        ∧ ∃ r : ℚ, extractRssi it = some r
          ∧ bestGo l acc = ⟨some r, extractSnr it⟩
          ∧ (∀ ba, acc.rssi = some ba → ba < r)
          ∧ (∀ x ∈ pre, ∀ rx : ℚ, extractRssi x = some rx → rx < r)
          ∧ (∀ x ∈ suf, ∀ rx : ℚ, extractRssi x = some rx → rx ≤ r)) := by
  induction l with
  | nil =>
    intro acc
    exact Or.inl ⟨rfl, by simp⟩
  | cons item rest ih =>
    intro acc
    have hgo : bestGo (item :: rest) acc = bestGo rest (bestStep acc item) := rfl
    cases h : extractRssi item with
    | none =>
      have hstep : bestStep acc item = acc := by simp [bestStep, h]
      rcases ih acc with ⟨heq, hall⟩ | ⟨pre, it, suf, hsplit, r, hr, hres, hacc, hpre, hsuf⟩
      · left
        constructor
        · rw [hgo, hstep, heq]
        · intro x hx rx hrx
          rcases List.mem_cons.mp hx with rfl | hx'
          · rw [h] at hrx
            cases hrx
          · exact hall x hx' rx hrx
      · right
        refine ⟨item :: pre, it, suf, by rw [hsplit]; rfl, r, hr, ?_, hacc, ?_, hsuf⟩
        · rw [hgo, hstep]
          exact hres
        · intro x hx rx hrx
          rcases List.mem_cons.mp hx with rfl | hx'
          · rw [h] at hrx
            cases hrx
          · exact hpre x hx' rx hrx
    | some r =>
      obtain ⟨accR, accS⟩ := acc
      cases accR with
      | none =>
        have hstep : bestStep ⟨none, accS⟩ item = ⟨some r, extractSnr item⟩ := by
          simp [bestStep, h]
        rcases ih ⟨some r, extractSnr item⟩ with ⟨heq, hall⟩ |
          ⟨pre, it, suf, hsplit, r', hr', hres, hacc', hpre, hsuf⟩
        · right
          refine ⟨[], item, rest, rfl, r, h, ?_, ?_, by simp, ?_⟩
          · rw [hgo, hstep, heq]
          · intro ba hba
            cases hba
          · intro x hx rx hrx
            obtain ⟨ba, hba, hle⟩ := hall x hx rx hrx
            cases hba
            exact hle
        · right
          refine ⟨item :: pre, it, suf, by rw [hsplit]; rfl, r', hr', ?_, ?_, ?_, hsuf⟩
          · rw [hgo, hstep]
            exact hres
          · intro ba hba
            cases hba
          · intro x hx rx hrx
            rcases List.mem_cons.mp hx with rfl | hx'
            · rw [h] at hrx
              cases hrx
              exact hacc' r rfl
            · exact hpre x hx' rx hrx
      | some br =>
        by_cases hlt : br < r
        · have hstep : bestStep ⟨some br, accS⟩ item = ⟨some r, extractSnr item⟩ := by
            simp [bestStep, h, hlt]
          rcases ih ⟨some r, extractSnr item⟩ with ⟨heq, hall⟩ |
            ⟨pre, it, suf, hsplit, r', hr', hres, hacc', hpre, hsuf⟩
          · right
            refine ⟨[], item, rest, rfl, r, h, ?_, ?_, by simp, ?_⟩
            · rw [hgo, hstep, heq]
            · intro ba hba
              cases hba
              exact hlt
            · intro x hx rx hrx
              obtain ⟨ba, hba, hle⟩ := hall x hx rx hrx
              cases hba
              exact hle
          · right
            have hrr' : r < r' := hacc' r rfl
            refine ⟨item :: pre, it, suf, by rw [hsplit]; rfl, r', hr', ?_, ?_, ?_, hsuf⟩
            · rw [hgo, hstep]
              exact hres
            · intro ba hba
              cases hba
              exact lt_trans hlt hrr'
            · intro x hx rx hrx
              rcases List.mem_cons.mp hx with rfl | hx'
              · rw [h] at hrx
                cases hrx
                exact hrr'
              · exact hpre x hx' rx hrx
        · have hler : r ≤ br := not_lt.mp hlt
          have hstep : bestStep ⟨some br, accS⟩ item = ⟨some br, accS⟩ := by
            simp [bestStep, h, hlt]
          rcases ih ⟨some br, accS⟩ with ⟨heq, hall⟩ |
            ⟨pre, it, suf, hsplit, r', hr', hres, hacc', hpre, hsuf⟩
          · left
            constructor
            · rw [hgo, hstep, heq]
            · intro x hx rx hrx
              rcases List.mem_cons.mp hx with rfl | hx'
              · rw [h] at hrx
                cases hrx
                exact ⟨br, rfl, hler⟩
              · exact hall x hx' rx hrx
          · right
            have hbr' : br < r' := hacc' br rfl
            refine ⟨item :: pre, it, suf, by rw [hsplit]; rfl, r', hr', ?_, hacc', ?_, hsuf⟩
            · rw [hgo, hstep]
              exact hres
            · intro x hx rx hrx
              rcases List.mem_cons.mp hx with rfl | hx'
              · rw [h] at hrx
                cases hrx
                exact lt_of_le_of_lt hler hbr'
              · exact hpre x hx' rx hrx

/-- C6: `bestSignal` selects the record with the numerically greatest RSSI
(ties keep the first one encountered), with snr taken from that same
record; records with no RSSI contribute nothing; the composite selection of
the normalizer falls back to top-level scalar fields when no per-record
list exists, and keeps the best record's paired values when present; and on
the two records `(rssi -80, snr 5)`, `(rssi -60, snr 9)` the result is
`(rssi -60, snr 9)`. -/
theorem bestSignal_greatest_rssi :
    (∀ items : List JsVal,
      ((bestSignal items).rssi = none →
        (bestSignal items).snr = none ∧ ∀ x ∈ items, extractRssi x = none)
      ∧ (∀ r : ℚ, (bestSignal items).rssi = some r →
          ∃ pre it suf, items = pre ++ it :: suf
            ∧ extractRssi it = some r
            ∧ (bestSignal items).snr = extractSnr it
            ∧ (∀ x ∈ pre, ∀ rx : ℚ, extractRssi x = some rx → rx < r)
            ∧ (∀ x ∈ items, ∀ rx : ℚ, extractRssi x = some rx → rx ≤ r)))
    ∧ (∀ up : JsVal, rxCandidates up = [] →
        signalOf up = ⟨numOrNull (firstDefined up
            [[.key "rssi"], [.key "uplink_message", .key "rssi"]]),
          numOrNull (firstDefined up
            [[.key "loRaSNR"], [.key "loraSNR"], [.key "snr"],
             [.key "uplink_message", .key "snr"]])⟩)
    ∧ (∀ up : JsVal, ∀ r s : ℚ,
        bestSignal (rxCandidates up) = ⟨some r, some s⟩ →
        signalOf up = ⟨some r, some s⟩)
    ∧ bestSignal [JsVal.obj [("rssi", .num (.finite (-80))), ("snr", .num (.finite 5))],
        JsVal.obj [("rssi", .num (.finite (-60))), ("snr", .num (.finite 9))]]
      = ⟨some (-60), some 9⟩ := by
  refine ⟨?_, ?_, ?_, by decide⟩
  · intro items
    constructor
    · intro hnone
      rcases bestGo_cases items ⟨none, none⟩ with ⟨heq, hall⟩ |
        ⟨pre, it, suf, hsplit, r, hr, hres, _, _, _⟩
      · have hbs : bestSignal items = ⟨none, none⟩ := heq
        refine ⟨by rw [hbs], ?_⟩
        intro x hx
        cases e : extractRssi x with
        | none => rfl
        | some rx =>
          obtain ⟨ba, hba, _⟩ := hall x hx rx e
          cases hba
      · have : (bestSignal items).rssi = some r := by
          show (bestGo items ⟨none, none⟩).rssi = some r
          rw [hres]
        rw [hnone] at this
        cases this
    · intro r hr
      rcases bestGo_cases items ⟨none, none⟩ with ⟨heq, _⟩ |
        ⟨pre, it, suf, hsplit, r', hr', hres, _, hpre, hsuf⟩
      · have : (bestSignal items).rssi = none := by
          show (bestGo items ⟨none, none⟩).rssi = none
          rw [heq]
        rw [hr] at this
        cases this
      · have hbs : bestSignal items = ⟨some r', extractSnr it⟩ := hres
        have hrr : r' = r := by
          rw [hbs] at hr
          exact Option.some.inj hr
        subst hrr
        refine ⟨pre, it, suf, hsplit, hr', by rw [hbs], hpre, ?_⟩
        intro x hx rx hrx
        rw [hsplit] at hx
        rcases List.mem_append.mp hx with hx' | hx'
        · exact le_of_lt (hpre x hx' rx hrx)
        · rcases List.mem_cons.mp hx' with rfl | hx''
          · rw [hr'] at hrx
            exact le_of_eq (Option.some.inj hrx).symm
          · exact hsuf x hx'' rx hrx
  · intro up hempty
    show signalOf up = _
    unfold signalOf
    rw [hempty]
    rfl
  · intro up r s hbest
    unfold signalOf
    rw [hbest]

/-- Concrete instantiation of `bestSignal_greatest_rssi`'s fallback clause
at a document with no gateway-reception list. -/
theorem bestSignal_greatest_rssi_witness :
    signalOf JsVal.null = ⟨none, none⟩ := by
  have h := bestSignal_greatest_rssi.2.1 JsVal.null rfl
  simpa using h

/-! ### Device-EUI normalization (part_000 lines 49-60) -/

/-- A character matched by the regex `[0-9a-fA-F]` (by code point). -/
def isHexDigit (c : Char) : Bool :=
  decide ((48 ≤ c.toNat ∧ c.toNat ≤ 57) ∨ (97 ≤ c.toNat ∧ c.toNat ≤ 102)
    ∨ (65 ≤ c.toNat ∧ c.toNat ≤ 70))

/-- The regex `HEX16 = ^[0-9a-fA-F]{16}$`. -/
def isHex16 (s : String) : Bool :=
  s.data.length == 16 && s.data.all isHexDigit

/-- A lowercase hex character `[0-9a-f]` (by code point). -/
def isLowerHexChar (c : Char) : Bool :=
  decide ((48 ≤ c.toNat ∧ c.toNat ≤ 57) ∨ (97 ≤ c.toNat ∧ c.toNat ≤ 102))

/-- Exactly 16 lowercase hex characters. -/
def isLowerHex16 (s : String) : Bool :=
  s.data.length == 16 && s.data.all isLowerHexChar

/-- Model of `String.prototype.toLowerCase` on one character, restricted
to the ASCII range (the Unicode cases are external behaviour no claim
exercises): A-Z shift down by 32, everything else unchanged. -/
def jsLowerChar (c : Char) : Char :=
  if 65 ≤ c.toNat ∧ c.toNat ≤ 90 then Char.ofNat (c.toNat + 32) else c

/-- Model of `String.prototype.toLowerCase`. -/
def jsToLower (s : String) : String :=
  ⟨s.data.map jsLowerChar⟩

/-- Value of a base64 alphabet character. -/
def b64Val (c : Char) : Option ℕ :=
  if 65 ≤ c.toNat ∧ c.toNat ≤ 90 then some (c.toNat - 65)
  else if 97 ≤ c.toNat ∧ c.toNat ≤ 122 then some (c.toNat - 97 + 26)
  else if 48 ≤ c.toNat ∧ c.toNat ≤ 57 then some (c.toNat - 48 + 52)
  else if c = '+' then some 62
  else if c = '/' then some 63
  else none

/-- The 6-bit groups of a base64 string; padding and whitespace are
skipped, any other non-alphabet character makes the whole decode fail
(Node's decoder is laxer — it skips unknown characters — but no inspected
input relies on that). -/
def b64Sextets : List Char → Option (List ℕ)
  | [] => some []
  | c :: rest =>
    if c = '=' || isJsWhitespace c then b64Sextets rest
    else
      match b64Val c, b64Sextets rest with
      | some v, some vs => some (v :: vs)
      | _, _ => none

/-- Bytes from 6-bit groups: 4 groups give 3 bytes, a tail of 2 or 3
groups gives 1 or 2 bytes (trailing bits dropped), a lone group gives
nothing. -/
def b64Bytes : List ℕ → List ℕ
  | a :: b :: c :: d :: rest =>
    (a * 4 + b / 16) :: ((b % 16) * 16 + c / 4) :: ((c % 4) * 64 + d) :: b64Bytes rest
  | [a, b] => [a * 4 + b / 16]
  | [a, b, c] => [a * 4 + b / 16, (b % 16) * 16 + c / 4]
  | _ => []

/-- Model of `Buffer.from(s, "base64")` (never throws; failure is modelled
as `none`, which `normalizeDevEui` treats like a buffer of the wrong
length). -/
def jsBase64Decode (s : String) : Option (List ℕ) :=
  (b64Sextets s.data).map b64Bytes

/-- The sixteen lowercase hex digit characters. -/
def hexDigits : List Char :=
  "0123456789abcdef".data

/-- The two hex characters of one byte (model of `Buffer.toString("hex")`
per byte). -/
def byteToHex (b : ℕ) : List Char :=
  [hexDigits.getD (b / 16 % 16) '0', hexDigits.getD (b % 16) '0']

/-- Model of `buf.toString("hex")`. -/
def bytesToHex (bs : List ℕ) : String :=
  ⟨(bs.map byteToHex).join⟩

/-- The result of `normalizeDevEui`: `{ hex?, base64? }`. -/
structure DevEui where
  hex : Option String
  base64 : Option String
deriving DecidableEq

/-- `normalizeDevEui` (part_000 lines 49-60): non-strings and
whitespace-only strings give `{}`; a 16-hex-character string is lower-cased
and used directly; otherwise a string whose base64 decoding has exactly 8
bytes gives the hex of those bytes with the original retained; otherwise
the trimmed string lower-cased is used as-is. -/
def normalizeDevEui (v : JsVal) : DevEui :=
  match v with
  | .str s0 =>
    let s := jsTrim s0
    if s = "" then ⟨none, none⟩
    else if isHex16 s then ⟨some (jsToLower s), none⟩
    else
      match jsBase64Decode s with
      | some buf =>
        if buf.length = 8 then ⟨some (bytesToHex buf), some s⟩
        else ⟨some (jsToLower s), none⟩
      | none => ⟨some (jsToLower s), none⟩
  | _ => ⟨none, none⟩

theorem toNat_ofNat_small (n : ℕ) (h : n < 55296) : (Char.ofNat n).toNat = n := by
  unfold Char.ofNat
  rw [dif_pos (Or.inl h)]
  rfl

theorem jsLowerChar_hex (c : Char) (h : isHexDigit c = true) :
    isLowerHexChar (jsLowerChar c) = true := by
  simp only [isHexDigit, decide_eq_true_eq] at h
  simp only [isLowerHexChar, decide_eq_true_eq]
  rcases h with h | h | h
  · rw [jsLowerChar, if_neg (by omega)]
    omega
  · rw [jsLowerChar, if_neg (by omega)]
    omega
  · rw [jsLowerChar, if_pos (by omega)]
    rw [toNat_ofNat_small _ (by omega)]
    omega

theorem hexDigit_lower (n : ℕ) : isLowerHexChar (hexDigits.getD n '0') = true := by
  rcases Nat.lt_or_ge n 16 with h | h
  · interval_cases n <;> decide
  · rw [List.getD_eq_default _ _ (by
      have hl : hexDigits.length = 16 := rfl
      omega)]
    decide

theorem byteToHex_lower (b : ℕ) : (byteToHex b).all isLowerHexChar = true := by
  simp only [byteToHex, List.all_cons, List.all_nil, hexDigit_lower, Bool.and_true,
    Bool.and_self]

theorem bytesToHex_all_lower (bs : List ℕ) :
    (bytesToHex bs).data.all isLowerHexChar = true := by
  show ((bs.map byteToHex).flatten).all isLowerHexChar = true
  induction bs with
  | nil => rfl
  | cons b rest ih =>
    simp only [List.map_cons, List.flatten_cons, List.all_append, ih, Bool.and_true]
    exact byteToHex_lower b

theorem bytesToHex_length (bs : List ℕ) :
    (bytesToHex bs).data.length = 2 * bs.length := by
  show ((bs.map byteToHex).flatten).length = 2 * bs.length
  induction bs with
  | nil => rfl
  | cons b rest ih =>
    have hb : (byteToHex b).length = 2 := rfl
    rw [List.map_cons, List.flatten_cons, List.length_append, ih, hb, List.length_cons]
    omega

theorem isLowerHex16_bytesToHex (bs : List ℕ) (h : bs.length = 8) :
    isLowerHex16 (bytesToHex bs) = true := by
  simp only [isLowerHex16, Bool.and_eq_true, beq_iff_eq]
  exact ⟨by rw [bytesToHex_length, h], bytesToHex_all_lower bs⟩

theorem isLowerHex16_toLower (s : String) (h : isHex16 s = true) :
    isLowerHex16 (jsToLower s) = true := by
  simp only [isHex16, Bool.and_eq_true, beq_iff_eq, List.all_eq_true] at h
  simp only [isLowerHex16, Bool.and_eq_true, beq_iff_eq, List.all_eq_true]
  constructor
  · show (s.data.map jsLowerChar).length = 16
    rw [List.length_map]
    exact h.1
  · intro c hc
    show isLowerHexChar c = true
    obtain ⟨c0, hc0, rfl⟩ := List.mem_map.mp hc
    exact jsLowerChar_hex c0 (h.2 c0 hc0)

/-- C7: `normalizeDevEui` lower-cases a 16-hex-character candidate and uses
it directly; otherwise a candidate that base64-decodes to exactly 8 bytes
yields the hex of those bytes with the original base64 form retained;
otherwise the trimmed raw string lower-cased is used as-is; non-strings and
whitespace-only candidates yield `{}`; and whenever one of the first two
branches applies, the resulting `hex` is exactly 16 lowercase hex
characters. -/
theorem normalizeDevEui_spec :
    (∀ s0 : String,
      (jsTrim s0 = "" → normalizeDevEui (.str s0) = ⟨none, none⟩)
      ∧ (isHex16 (jsTrim s0) = true →
          normalizeDevEui (.str s0) = ⟨some (jsToLower (jsTrim s0)), none⟩
          ∧ isLowerHex16 (jsToLower (jsTrim s0)) = true)
      ∧ (isHex16 (jsTrim s0) = false → jsTrim s0 ≠ "" →
          (∀ buf, jsBase64Decode (jsTrim s0) = some buf → buf.length = 8 →
            normalizeDevEui (.str s0) = ⟨some (bytesToHex buf), some (jsTrim s0)⟩
            ∧ isLowerHex16 (bytesToHex buf) = true)
          ∧ (∀ buf, jsBase64Decode (jsTrim s0) = some buf → buf.length ≠ 8 →
              normalizeDevEui (.str s0) = ⟨some (jsToLower (jsTrim s0)), none⟩)
          ∧ (jsBase64Decode (jsTrim s0) = none →
              normalizeDevEui (.str s0) = ⟨some (jsToLower (jsTrim s0)), none⟩)))
    ∧ (∀ n, normalizeDevEui (.num n) = ⟨none, none⟩)
    ∧ (∀ b, normalizeDevEui (.boolean b) = ⟨none, none⟩)
    ∧ normalizeDevEui .null = ⟨none, none⟩
    ∧ (∀ l, normalizeDevEui (.arr l) = ⟨none, none⟩)
    ∧ (∀ f, normalizeDevEui (.obj f) = ⟨none, none⟩) := by
  refine ⟨?_, fun n => rfl, fun b => rfl, rfl, fun l => rfl, fun f => rfl⟩
  intro s0
  refine ⟨?_, ?_, ?_⟩
  · intro h
    simp only [normalizeDevEui, h, if_pos]
  · intro h
    have hne : jsTrim s0 ≠ "" := by
      intro he
      rw [he] at h
      simp [isHex16] at h
    refine ⟨?_, isLowerHex16_toLower _ h⟩
    simp only [normalizeDevEui]
    rw [if_neg hne, if_pos h]
  · intro hhex hne
    refine ⟨?_, ?_, ?_⟩
    · intro buf hbuf hlen
      refine ⟨?_, isLowerHex16_bytesToHex buf hlen⟩
      simp only [normalizeDevEui]
      rw [if_neg hne, if_neg (by simp [hhex]), hbuf]
      simp [hlen]
    · intro buf hbuf hlen
      simp only [normalizeDevEui]
      rw [if_neg hne, if_neg (by simp [hhex]), hbuf]
      simp [hlen]
    · intro hnone
      simp only [normalizeDevEui]
      rw [if_neg hne, if_neg (by simp [hhex]), hnone]

/-- Concrete instantiation of `normalizeDevEui_spec`: a mixed-case
16-hex-character candidate is lower-cased and satisfies the 16-lowercase-hex
invariant. -/
theorem normalizeDevEui_spec_witness :
    normalizeDevEui (.str "AABBCCDD00112233") = ⟨some "aabbccdd00112233", none⟩
    ∧ isLowerHex16 "aabbccdd00112233" = true := by
  have h := (normalizeDevEui_spec.1 "AABBCCDD00112233").2.1 (by decide)
  constructor
  · rw [h.1]
    decide
  · decide

/-! ### listUplinks (src/src/db.ts lines 365-373)

`stmtAllUplinksForDevice` delivers the device's rows ordered by
`at ASC, id ASC`; `listUplinks` filters them by the optional closed
interval and keeps the tail of length `Math.max(1, limit)`. -/

/-- The closed-interval filter of `listReadings`/`listUplinks`: a bound
that is undefined (or the empty string, which is falsy) does not
constrain; otherwise rows with `at < from` or `at > to` are dropped. -/
def inWindowStr (fromB toB : Option String) (a : String) : Bool :=
  (match fromB with
   | some f => if f = "" then true else !(decide (a < f))
   | none => true) &&
  (match toB with
   | some t => if t = "" then true else !(decide (t < a))
   | none => true)

/-- `listUplinks` (db.ts lines 365-373) applied to the device's rows in
query order: closed-interval filter, then
`filtered.slice(Math.max(0, filtered.length - Math.max(1, limit)))`. -/
def listUplinks (all : List UplinkRow) (fromB toB : Option String) (limit : ℤ) : List UplinkRow :=
  let filtered := all.filter (fun r => inWindowStr fromB toB r.atIso)
  filtered.drop (filtered.length - (max 1 limit).toNat)

/-- A concrete uplinks row. -/
def exRow8 : UplinkRow :=
  { id := 0, dev_eui := "d8", atIso := "t0", provider := none, device_name := none,
    application_id := none, application_name := none, deduplication_id := "x",
    meter_value := none, meter_value_raw := none, battery_mv := none, rssi := none,
    snr := none, decoded_json := none, payload_json := none }

/-- C8 counterexample: with `limit = 0` (`Math.max(1, limit)` clamps to 1)
`listUplinks` returns one row, more than the requested limit. -/
theorem listUplinks_limit_zero_cex :
    (listUplinks [exRow8] none none 0).length = 1
    ∧ ¬((listUplinks [exRow8] none none 0).length ≤ 0) := by
  decide

/-- C8 (amended): `listUplinks` returns at most `max 1 limit` rows — hence
at most `limit` rows whenever `limit ≥ 1` — and the rows returned are
closed-interval filtered rows of the device's list, the most recent by
time: every filtered row left out is no newer than every returned row
(the input list is the SQL result, ordered by time ascending). -/
theorem listUplinks_spec (all : List UplinkRow) (fromB toB : Option String) (limit : ℤ)
    (hsorted : all.Pairwise (fun a b => a.atIso ≤ b.atIso)) :
    (1 ≤ limit → (listUplinks all fromB toB limit).length ≤ limit.toNat)
    ∧ (listUplinks all fromB toB limit).length ≤ (max 1 limit).toNat
    ∧ (∀ r ∈ listUplinks all fromB toB limit,
        r ∈ all ∧ inWindowStr fromB toB r.atIso = true)
    ∧ (∀ r ∈ all, inWindowStr fromB toB r.atIso = true →
        r ∉ listUplinks all fromB toB limit →
        ∀ s ∈ listUplinks all fromB toB limit, r.atIso ≤ s.atIso) := by
  have hlen : ∀ l : List UplinkRow, ∀ n : ℕ, (l.drop n).length ≤ l.length - n := by
    intro l n
    rw [List.length_drop]
  refine ⟨?_, ?_, ?_, ?_⟩
  · intro h1
    have := hlen (all.filter (fun r => inWindowStr fromB toB r.atIso))
      ((all.filter (fun r => inWindowStr fromB toB r.atIso)).length - (max 1 limit).toNat)
    have hmax : (max 1 limit).toNat = limit.toNat := by
      rw [max_eq_right h1]
    calc (listUplinks all fromB toB limit).length
        ≤ _ := this
      _ ≤ (max 1 limit).toNat := by omega
      _ = limit.toNat := hmax
  · have := hlen (all.filter (fun r => inWindowStr fromB toB r.atIso))
      ((all.filter (fun r => inWindowStr fromB toB r.atIso)).length - (max 1 limit).toNat)
    calc (listUplinks all fromB toB limit).length
        ≤ _ := this
      _ ≤ (max 1 limit).toNat := by omega
  · intro r hr
    have hr' : r ∈ all.filter (fun r => inWindowStr fromB toB r.atIso) := by
      exact List.mem_of_mem_drop hr
    have := List.mem_filter.mp hr'
    exact ⟨this.1, this.2⟩
  · intro r hrall hrw hrout s hs
    have hrf : r ∈ all.filter (fun x => inWindowStr fromB toB x.atIso) :=
      List.mem_filter.mpr ⟨hrall, hrw⟩
    have hpf : (all.filter (fun x => inWindowStr fromB toB x.atIso)).Pairwise
        (fun a b => a.atIso ≤ b.atIso) := hsorted.filter _
    set fl := all.filter (fun x => inWindowStr fromB toB x.atIso) with hfl
    set n := fl.length - (max 1 limit).toNat with hn
    have hsplit : fl.take n ++ fl.drop n = fl := List.take_append_drop n fl
    have hcross := (List.pairwise_append.mp (by rw [hsplit]; exact hpf)).2.2
    have hrtake : r ∈ fl.take n := by
      rcases List.mem_append.mp (by rw [hsplit]; exact hrf) with h | h
      · exact h
      · exact absurd h hrout
    exact hcross r hrtake s hs

/-- Concrete instantiation of `listUplinks_spec` with one row and
`limit = 5`. -/
theorem listUplinks_spec_witness :
    (listUplinks [exRow8] none none 5).length ≤ (5 : ℤ).toNat :=
  (listUplinks_spec [exRow8] none none 5 (by simp)).1 (by decide)

/-! ### dailyConsumption (src/src/db.ts lines 497-549)

The aggregator is parameterized by the external behaviours `toMs`
(`new Date(iso).getTime()`) and `localDate` (`getLocalDateString`, the
`Intl`-based projection of an instant to a local calendar date string in
the requested timezone). -/

/-- A row as selected by `stmtAllReadingsForDevice` for the aggregator:
`at` plus the `REAL NOT NULL` meter value (a rational; SQLite REAL cannot
hold NaN). -/
structure DbReading where
  atIso : String
  meter_value : ℚ
deriving DecidableEq

/-- A point of the daily-consumption series. -/
structure DailyPoint where
  date : String
  consumption : Option ℚ
  closing : Option ℚ
deriving DecidableEq

/-- The `byDate[date]` update for one in-window reading (db.ts lines
531-533): `first` is set only when the date bucket is new, `last`
always. -/
def updateByDate (acc : List (String × ℚ × ℚ)) (d : String) (mv : ℚ) :
    List (String × ℚ × ℚ) :=
  match acc with
  | [] => [(d, mv, mv)]
  | e :: rest =>
    if e.1 = d then (e.1, e.2.1, mv) :: rest else e :: updateByDate rest d mv

/-- The aggregation loop of `dailyConsumption` (db.ts lines 523-534):
readings outside the absolute window are skipped, the rest are bucketed by
local date in iteration order. -/
def buildByDate (toMs : String → ℤ) (localDate : String → String)
    (startMs endMs : ℤ) :
    List (String × ℚ × ℚ) → List DbReading → List (String × ℚ × ℚ)
  | acc, [] => acc
  | acc, r :: rest =>
    buildByDate toMs localDate startMs endMs
      (if toMs r.atIso < startMs ∨ endMs < toMs r.atIso then acc
       else updateByDate acc (localDate r.atIso) r.meter_value) rest

/-- Insertion step of the date sort (`Object.keys(byDate).sort()`). -/
def insertPoint (p : String × ℚ × ℚ) : List (String × ℚ × ℚ) → List (String × ℚ × ℚ)
  | [] => [p]
  | q :: rest => if p.1 ≤ q.1 then p :: q :: rest else q :: insertPoint p rest

/-- Sort of the date buckets by date string (lexicographic, as JS
`Array.prototype.sort` with default comparator on these keys). -/
def sortPoints : List (String × ℚ × ℚ) → List (String × ℚ × ℚ)
  | [] => []
  | p :: rest => insertPoint p (sortPoints rest)

/-- `dailyConsumption` (db.ts lines 514-549): window `[endMs - days·86400000,
endMs]`, bucket in-window readings by local date, emit per date
`consumption = last - first` and `closing = last`, sorted by date. -/
def dailyConsumption (toMs : String → ℤ) (localDate : String → String)
    (all : List DbReading) (endMs : ℤ) (days : ℤ) : List DailyPoint :=
  if all = [] then []
  else
    let startMs := endMs - days * 86400000
    let byDate := buildByDate toMs localDate startMs endMs [] all
    (sortPoints byDate).map (fun e => ⟨e.1, some (e.2.2 - e.2.1), some e.2.2⟩)

/-- The bucket stored for a date, if any. -/
def lookupDate (acc : List (String × ℚ × ℚ)) (d : String) : Option (ℚ × ℚ) :=
  (acc.find? (fun e => e.1 == d)).map (fun e => e.2)

/-- What a date bucket must equal, given the bucket before the loop and
the date's in-window meter values in iteration order. -/
def specEntry : Option (ℚ × ℚ) → List ℚ → Option (ℚ × ℚ)
  | some (f, l0), vs => some (f, vs.getLastD l0)
  | none, [] => none
  | none, v :: vs => some (v, vs.getLastD v)

/-- The in-window rows of one local date, in iteration order. -/
def dateRows (toMs : String → ℤ) (localDate : String → String)
    (startMs endMs : ℤ) (all : List DbReading) (d : String) : List DbReading :=
  all.filter (fun r =>
    !(decide (toMs r.atIso < startMs) || decide (endMs < toMs r.atIso))
    && (localDate r.atIso == d))

theorem dateRows_cons (toMs : String → ℤ) (localDate : String → String)
    (startMs endMs : ℤ) (r : DbReading) (rest : List DbReading) (d : String) :
    dateRows toMs localDate startMs endMs (r :: rest) d
      = if (!(decide (toMs r.atIso < startMs) || decide (endMs < toMs r.atIso))
            && (localDate r.atIso == d)) = true
        then r :: dateRows toMs localDate startMs endMs rest d
        else dateRows toMs localDate startMs endMs rest d := by
  rw [dateRows, List.filter_cons]
  split
  · rw [dateRows]
  · rw [dateRows]

theorem lookupDate_cons (e : String × ℚ × ℚ) (rest : List (String × ℚ × ℚ)) (d : String) :
    lookupDate (e :: rest) d = if e.1 == d then some e.2 else lookupDate rest d := by
  by_cases hc : (e.1 == d) = true
  · simp [lookupDate, List.find?_cons, hc]
  · simp only [Bool.not_eq_true] at hc
    simp [lookupDate, List.find?_cons, hc]

theorem lookupDate_update_self (acc : List (String × ℚ × ℚ)) (d : String) (mv : ℚ) :
    lookupDate (updateByDate acc d mv) d
      = match lookupDate acc d with
        | some fl => some (fl.1, mv)
        | none => some (mv, mv) := by
  induction acc with
  | nil => simp [updateByDate, lookupDate]
  | cons e rest ih =>
    by_cases he : e.1 = d
    · rw [updateByDate]
      rw [if_pos he, lookupDate_cons, lookupDate_cons]
      simp [he]
    · rw [updateByDate]
      rw [if_neg he, lookupDate_cons, lookupDate_cons, ih]
      have : (e.1 == d) = false := beq_false_of_ne he
      rw [this]
      simp

theorem lookupDate_update_other (acc : List (String × ℚ × ℚ)) (d d' : String) (mv : ℚ)
    (h : d' ≠ d) :
    lookupDate (updateByDate acc d mv) d' = lookupDate acc d' := by
  induction acc with
  | nil =>
    simp [updateByDate, lookupDate, List.find?_cons, beq_false_of_ne (Ne.symm h)]
  | cons e rest ih =>
    by_cases he : e.1 = d
    · rw [updateByDate, if_pos he, lookupDate_cons, lookupDate_cons]
      have : (e.1 == d') = false := beq_false_of_ne (by rw [he]; exact Ne.symm h)
      rw [this]
      simp
    · rw [updateByDate, if_neg he, lookupDate_cons, lookupDate_cons, ih]

theorem buildByDate_lookup (toMs : String → ℤ) (localDate : String → String)
    (startMs endMs : ℤ) :
    ∀ (l : List DbReading) (acc : List (String × ℚ × ℚ)) (d : String),
    lookupDate (buildByDate toMs localDate startMs endMs acc l) d
      = specEntry (lookupDate acc d)
          ((dateRows toMs localDate startMs endMs l d).map (fun r => r.meter_value)) := by
  intro l
  induction l with
  | nil =>
    intro acc d
    rw [buildByDate, dateRows]
    cases h : lookupDate acc d with
    | none => simp [specEntry]
    | some fl =>
      obtain ⟨f, l0⟩ := fl
      simp [specEntry, List.getLastD_nil]
  | cons r rest ih =>
    intro acc d
    by_cases hw : toMs r.atIso < startMs ∨ endMs < toMs r.atIso
    · have hstep : buildByDate toMs localDate startMs endMs acc (r :: rest)
          = buildByDate toMs localDate startMs endMs acc rest := by
        rw [buildByDate, if_pos hw]
      have hcond : (!(decide (toMs r.atIso < startMs) || decide (endMs < toMs r.atIso))
          && (localDate r.atIso == d)) = false := by
        rcases hw with hw | hw <;> simp [hw]
      rw [hstep, ih, dateRows_cons, if_neg (by rw [hcond]; simp)]
    · have hna : ¬(toMs r.atIso < startMs) := fun hc => hw (Or.inl hc)
      have hnb : ¬(endMs < toMs r.atIso) := fun hc => hw (Or.inr hc)
      have hstep : buildByDate toMs localDate startMs endMs acc (r :: rest)
          = buildByDate toMs localDate startMs endMs
              (updateByDate acc (localDate r.atIso) r.meter_value) rest := by
        rw [buildByDate, if_neg hw]
      rw [hstep, ih]
      by_cases hd : localDate r.atIso = d
      · have hcond : (!(decide (toMs r.atIso < startMs) || decide (endMs < toMs r.atIso))
            && (localDate r.atIso == d)) = true := by
          simp [hna, hnb, hd]
        rw [dateRows_cons, if_pos hcond]
        rw [hd, lookupDate_update_self]
        cases hprev : lookupDate acc d with
        | none =>
          simp only [List.map_cons, specEntry, List.getLastD_cons]
        | some fl =>
          obtain ⟨f, l0⟩ := fl
          simp only [List.map_cons, specEntry, List.getLastD_cons]
      · have hcond : (!(decide (toMs r.atIso < startMs) || decide (endMs < toMs r.atIso))
            && (localDate r.atIso == d)) = false := by
          simp [beq_false_of_ne hd]
        rw [dateRows_cons, if_neg (by rw [hcond]; simp)]
        rw [lookupDate_update_other _ _ _ _ (Ne.symm hd)]

/-- Keys of the accumulated buckets are distinct. -/
def KeysDistinct (acc : List (String × ℚ × ℚ)) : Prop :=
  (acc.map Prod.fst).Nodup

theorem updateByDate_keys_subset (acc : List (String × ℚ × ℚ)) (d : String) (mv : ℚ) :
    ∀ k ∈ (updateByDate acc d mv).map Prod.fst, k ∈ acc.map Prod.fst ∨ k = d := by
  induction acc with
  | nil =>
    intro k hk
    rw [updateByDate] at hk
    simp at hk
    exact Or.inr hk
  | cons e rest ih =>
    intro k hk
    by_cases he : e.1 = d
    · rw [updateByDate, if_pos he, List.map_cons] at hk
      rcases List.mem_cons.mp hk with rfl | hk'
      · left
        rw [List.map_cons]
        exact List.mem_cons_self _ _
      · left
        rw [List.map_cons]
        exact List.mem_cons_of_mem _ hk'
    · rw [updateByDate, if_neg he, List.map_cons] at hk
      rcases List.mem_cons.mp hk with rfl | hk'
      · left
        rw [List.map_cons]
        exact List.mem_cons_self _ _
      · rcases ih k hk' with h | h
        · left
          rw [List.map_cons]
          exact List.mem_cons_of_mem _ h
        · exact Or.inr h

theorem updateByDate_distinct (acc : List (String × ℚ × ℚ)) (d : String) (mv : ℚ)
    (h : KeysDistinct acc) : KeysDistinct (updateByDate acc d mv) := by
  induction acc with
  | nil => simp [updateByDate, KeysDistinct]
  | cons e rest ih =>
    rw [KeysDistinct, List.map_cons, List.nodup_cons] at h
    by_cases he : e.1 = d
    · rw [KeysDistinct, updateByDate, if_pos he, List.map_cons, List.nodup_cons]
      exact ⟨h.1, h.2⟩
    · rw [KeysDistinct, updateByDate, if_neg he, List.map_cons, List.nodup_cons]
      refine ⟨?_, ih h.2⟩
      intro hmem
      rcases updateByDate_keys_subset rest d mv e.1 hmem with hc | hc
      · exact h.1 hc
      · exact he hc

theorem buildByDate_distinct (toMs : String → ℤ) (localDate : String → String)
    (startMs endMs : ℤ) :
    ∀ (l : List DbReading) (acc : List (String × ℚ × ℚ)),
    KeysDistinct acc →
    KeysDistinct (buildByDate toMs localDate startMs endMs acc l) := by
  intro l
  induction l with
  | nil => intro acc h; exact h
  | cons r rest ih =>
    intro acc h
    rw [buildByDate]
    split
    · exact ih acc h
    · exact ih _ (updateByDate_distinct acc _ _ h)

theorem lookup_of_mem_distinct (acc : List (String × ℚ × ℚ)) (h : KeysDistinct acc)
    (e : String × ℚ × ℚ) (he : e ∈ acc) : lookupDate acc e.1 = some e.2 := by
  induction acc with
  | nil => cases he
  | cons a rest ih =>
    rw [KeysDistinct, List.map_cons, List.nodup_cons] at h
    rcases List.mem_cons.mp he with rfl | he'
    · rw [lookupDate_cons]
      simp
    · rw [lookupDate_cons]
      have hne : (a.1 == e.1) = false := by
        apply beq_false_of_ne
        intro hc
        exact h.1 (hc ▸ List.mem_map.mpr ⟨e, he', rfl⟩)
      rw [hne]
      simp only [Bool.false_eq_true, if_false]
      exact ih h.2 he'

theorem mem_insertPoint (p q : String × ℚ × ℚ) :
    ∀ l, q ∈ insertPoint p l ↔ q = p ∨ q ∈ l := by
  intro l
  induction l with
  | nil => simp [insertPoint]
  | cons a rest ih =>
    rw [insertPoint]
    split
    · simp
    · rw [List.mem_cons, ih, List.mem_cons]
      tauto

theorem mem_sortPoints (p : String × ℚ × ℚ) :
    ∀ l, p ∈ sortPoints l ↔ p ∈ l := by
  intro l
  induction l with
  | nil => simp [sortPoints]
  | cons a rest ih =>
    rw [sortPoints, mem_insertPoint, ih, List.mem_cons]

theorem getLast?_cons_getLastD {α : Type} (v : α) (vs : List α) :
    (v :: vs).getLast? = some (vs.getLastD v) := by
  induction vs generalizing v with
  | nil => rfl
  | cons b t ih => rw [List.getLast?_cons_cons, ih b, List.getLastD_cons]

theorem getLastD_map {α β : Type} (f : α → β) (l : List α) (a : α) :
    (l.map f).getLastD (f a) = f (l.getLastD a) := by
  induction l generalizing a with
  | nil => rfl
  | cons b t ih => rw [List.map_cons, List.getLastD_cons, List.getLastD_cons, ih]

theorem pairwise_head_rel {α : Type} (R : α → α → Prop) (hrefl : ∀ a, R a a)
    (l : List α) (hp : l.Pairwise R) (h : α) (hh : l.head? = some h) :
    ∀ x ∈ l, R h x := by
  intro x hx
  cases l with
  | nil => cases hh
  | cons a t =>
    have ha : a = h := Option.some.inj hh
    subst ha
    rcases List.mem_cons.mp hx with rfl | hx'
    · exact hrefl x
    · exact (List.pairwise_cons.mp hp).1 x hx'

theorem pairwise_rel_getLast {α : Type} (R : α → α → Prop) (hrefl : ∀ a, R a a) :
    ∀ l : List α, l.Pairwise R → ∀ g, l.getLast? = some g → ∀ x ∈ l, R x g := by
  intro l
  induction l with
  | nil => intro _ g hg; cases hg
  | cons a t ih =>
    intro hp g hg x hx
    cases t with
    | nil =>
      have : a = g := by simpa using hg
      subst this
      have : x = a := by simpa using hx
      subst this
      exact hrefl x
    | cons b t2 =>
      have hg' : (b :: t2).getLast? = some g := by
        rw [List.getLast?_cons_cons] at hg
        exact hg
      rcases List.mem_cons.mp hx with rfl | hx'
      · exact (List.pairwise_cons.mp hp).1 g (List.mem_of_getLast?_eq_some hg')
      · exact ih (List.pairwise_cons.mp hp).2 g hg' x hx'

/-- C2 (amended): under the SQL ordering (rows time-ascending), every
DailyPoint returned by `dailyConsumption` belongs to a local date whose
in-window rows are non-empty, and has `closing` equal to the meter value of
the last (by time) in-window row of that date and `consumption` equal to
last minus first; a date with exactly one in-window reading gets
`consumption = 0` (not null). -/
theorem dailyConsumption_spec (toMs : String → ℤ) (localDate : String → String)
    (all : List DbReading) (endMs days : ℤ)
    (hsorted : all.Pairwise (fun a b => toMs a.atIso ≤ toMs b.atIso)) :
    ∀ p ∈ dailyConsumption toMs localDate all endMs days,
      ∃ r0 rl,
        (dateRows toMs localDate (endMs - days * 86400000) endMs all p.date).head? = some r0
        ∧ (dateRows toMs localDate (endMs - days * 86400000) endMs all p.date).getLast? = some rl
        ∧ p.closing = some rl.meter_value
        ∧ p.consumption = some (rl.meter_value - r0.meter_value)
        ∧ (∀ x ∈ dateRows toMs localDate (endMs - days * 86400000) endMs all p.date,
            toMs r0.atIso ≤ toMs x.atIso ∧ toMs x.atIso ≤ toMs rl.atIso)
        ∧ ((dateRows toMs localDate (endMs - days * 86400000) endMs all p.date).length = 1 →
            p.consumption = some 0) := by
  intro p hp
  rw [dailyConsumption] at hp
  by_cases hall : all = []
  · rw [if_pos hall] at hp
    cases hp
  · rw [if_neg hall] at hp
    obtain ⟨e, he, rfl⟩ := List.mem_map.mp hp
    have hemem : e ∈ buildByDate toMs localDate (endMs - days * 86400000) endMs [] all :=
      (mem_sortPoints e _).mp he
    have hdist : KeysDistinct (buildByDate toMs localDate (endMs - days * 86400000) endMs [] all) :=
      buildByDate_distinct _ _ _ _ all [] (by simp [KeysDistinct])
    have hlook := lookup_of_mem_distinct _ hdist e hemem
    rw [buildByDate_lookup] at hlook
    have hbase : lookupDate [] e.1 = none := rfl
    rw [hbase] at hlook
    set rows := dateRows toMs localDate (endMs - days * 86400000) endMs all e.1 with hrows
    cases hvs : rows.map (fun r => r.meter_value) with
    | nil =>
      rw [hvs] at hlook
      cases hlook
    | cons v vs =>
      rw [hvs] at hlook
      rw [specEntry] at hlook
      have he2 : e.2 = (v, vs.getLastD v) := (Option.some.inj hlook).symm
      obtain ⟨r0, rows', hrowseq⟩ : ∃ r0 rows', rows = r0 :: rows' := by
        cases hrc : rows with
        | nil => rw [hrc] at hvs; cases hvs
        | cons r0 rows' => exact ⟨r0, rows', rfl⟩
      have hhead : rows.head? = some r0 := by rw [hrowseq]; rfl
      have hlast : rows.getLast? = some (rows'.getLastD r0) := by
        rw [hrowseq]
        exact getLast?_cons_getLastD r0 rows'
      rw [hrowseq, List.map_cons] at hvs
      have hv0 : v = r0.meter_value := (List.cons.inj hvs).1.symm
      have hvs' : rows'.map (fun r => r.meter_value) = vs := (List.cons.inj hvs).2
      have hvlast : vs.getLastD v = (rows'.getLastD r0).meter_value := by
        rw [← hvs', hv0]
        exact getLastD_map _ rows' r0
      have hpair : rows.Pairwise (fun a b => toMs a.atIso ≤ toMs b.atIso) := by
        rw [hrows, dateRows]
        exact hsorted.filter _
      refine ⟨r0, rows'.getLastD r0, hhead, hlast, ?_, ?_, ?_, ?_⟩
      · show some e.2.2 = some (rows'.getLastD r0).meter_value
        rw [he2]
        exact congrArg some hvlast
      · show some (e.2.2 - e.2.1) = some ((rows'.getLastD r0).meter_value - r0.meter_value)
        rw [he2]
        show some (vs.getLastD v - v) = _
        rw [hvlast, hv0]
      · intro x hx
        constructor
        · exact pairwise_head_rel (fun a b => toMs a.atIso ≤ toMs b.atIso)
            (fun a => le_refl _) rows hpair r0 hhead x hx
        · exact pairwise_rel_getLast (fun a b => toMs a.atIso ≤ toMs b.atIso)
            (fun a => le_refl _) rows hpair _ hlast x hx
      · intro hlen1
        rw [hrowseq] at hlen1
        have hnil : rows' = [] := by
          cases rows' with
          | nil => rfl
          | cons _ _ => simp at hlen1
        have hvsnil : vs = [] := by
          rw [hnil] at hvs'
          exact hvs'.symm
        show some (e.2.2 - e.2.1) = some 0
        rw [he2]
        show some (vs.getLastD v - v) = _
        rw [hvsnil, List.getLastD_nil]
        rw [sub_self]

/-- C2 counterexample: a local date with exactly one in-window reading gets
`consumption = 0` (`last - first` of the same value), not null — db.ts
lines 531-533 set `first` and `last` to the same value, and line 541 then
computes `last - first = 0`. -/
theorem dailyConsumption_single_cex :
    dailyConsumption (fun _ => 0) (fun _ => "2024-01-01") [⟨"t1", 100⟩] 0 1
      = [⟨"2024-01-01", some 0, some 100⟩]
    ∧ some (0 : ℚ) ≠ (none : Option ℚ) := by
  refine ⟨?_, by simp⟩
  have h : dailyConsumption (fun _ => 0) (fun _ => "2024-01-01") [⟨"t1", (100 : ℚ)⟩] 0 1
      = [⟨"2024-01-01", some ((100 : ℚ) - 100), some 100⟩] := rfl
  rw [h]
  norm_num

/-- One concrete reading list for the aggregator. -/
def exAggReadings : List DbReading := [⟨"t1", 100⟩]

/-- The point `dailyConsumption` produces for `exAggReadings`. -/
def exAggPoint : DailyPoint := ⟨"d", some ((100 : ℚ) - 100), some 100⟩

/-- Concrete instantiation of `dailyConsumption_spec` on a one-reading
history. -/
theorem dailyConsumption_spec_witness :
    ∃ r0 rl,
      (dateRows (fun _ => 0) (fun _ => "d") (0 - 1 * 86400000) 0 exAggReadings
          exAggPoint.date).head? = some r0
      ∧ (dateRows (fun _ => 0) (fun _ => "d") (0 - 1 * 86400000) 0 exAggReadings
          exAggPoint.date).getLast? = some rl
      ∧ exAggPoint.closing = some rl.meter_value
      ∧ exAggPoint.consumption = some (rl.meter_value - r0.meter_value)
      ∧ (∀ x ∈ dateRows (fun _ => 0) (fun _ => "d") (0 - 1 * 86400000) 0 exAggReadings
            exAggPoint.date,
          (fun _ : String => (0 : ℤ)) r0.atIso ≤ (fun _ : String => (0 : ℤ)) x.atIso
          ∧ (fun _ : String => (0 : ℤ)) x.atIso ≤ (fun _ : String => (0 : ℤ)) rl.atIso)
      ∧ ((dateRows (fun _ => 0) (fun _ => "d") (0 - 1 * 86400000) 0 exAggReadings
            exAggPoint.date).length = 1 →
          exAggPoint.consumption = some 0) :=
  dailyConsumption_spec (fun _ => 0) (fun _ => "d") exAggReadings 0 1 (by simp [exAggReadings])
    exAggPoint
    (by
      rw [show dailyConsumption (fun _ => 0) (fun _ => "d") exAggReadings 0 1 = [exAggPoint]
        from rfl]
      exact List.mem_singleton.mpr rfl)

/-! ### The webhook handler (part_000 lines 394-474) -/

/-- The normalized uplink as returned by `parseLoRaPayload` and destructured
by `handleLoRaWebhook`.  `decodedObj`/`payloadObj` are carried in their
serialized form, as in `StoreUplinkInput`. -/
structure Parsed where
  provider : String
  devEui : Option String
  devEuiB64 : Option String
  deviceName : Option String
  applicationId : Option String
  applicationName : Option String
  atIso : String
  deduplicationId : Option String
  rssi : Option ℚ
  snr : Option ℚ
  battery_mv : Option ℚ
  meterValue : Option ℚ
  meterValueRaw : Option RawVal
  decodedObj : Option String
  payloadObj : Option String

/-- A storage call issued by the handler. -/
inductive WriteOp where
  | uplink (i : StoreUplinkInput)
  | reading (i : StoreReadingInput)

/-- What the handler returns to the transport boundary: HTTP status and
body, the storage calls it issued, and whether it pushed the `up-missing`
drop event. -/
structure WebhookOutcome where
  status : ℕ
  body : String
  writes : List WriteOp
  droppedNoDevice : Bool

/-- The `storeUplink` input the handler builds (part_000 lines 433-448). -/
def uplinkInputOfParsed (d : String) (p : Parsed) : StoreUplinkInput :=
  { dev_eui := d, atIso := p.atIso, provider := some p.provider,
    device_name := p.deviceName, application_id := p.applicationId,
    application_name := p.applicationName, deduplication_id := p.deduplicationId,
    meter_value := p.meterValue.map JsNum.finite,
    meter_value_raw := p.meterValueRaw,
    battery_mv := p.battery_mv.map JsNum.finite,
    rssi := p.rssi.map JsNum.finite, snr := p.snr.map JsNum.finite,
    decoded_json := p.decodedObj, payload_json := p.payloadObj }

/-- The `storeReading` input the handler builds (part_000 lines 451-463),
used only when the parsed meter value is non-null. -/
def readingInputOfParsed (d : String) (mv : ℚ) (p : Parsed) : StoreReadingInput :=
  { dev_eui := d, atIso := p.atIso, meter_value := .finite mv,
    meter_value_raw := p.meterValueRaw, device_name := p.deviceName,
    application_id := p.applicationId, application_name := p.applicationName,
    deduplication_id := p.deduplicationId,
    battery_mv := p.battery_mv.map JsNum.finite,
    rssi := p.rssi.map JsNum.finite, snr := p.snr.map JsNum.finite }

/-- The post-parse core of `handleLoRaWebhook` (part_000 lines 427-473):
`if (!devEui)` — the identity missing (undefined or the falsy empty
string) — push the `up-missing` event and acknowledge with 200 "ok",
issuing no storage call; otherwise store the uplink, plus a reading when
the meter value is non-null, and acknowledge with 200 "ok". -/
def handleLoRaWebhook (p : Parsed) : WebhookOutcome :=
  match p.devEui with
  | none => ⟨200, "ok", [], true⟩
  | some d =>
    if d = "" then ⟨200, "ok", [], true⟩
    else
      ⟨200, "ok",
        .uplink (uplinkInputOfParsed d p) ::
          (match p.meterValue with
           | some mv => [.reading (readingInputOfParsed d mv p)]
           | none => []),
        false⟩

/-- Replaying the handler's storage calls against the two tables. -/
def applyWrites (ws : List WriteOp) (st : UplinkTable × List ReadingRow) :
    UplinkTable × List ReadingRow :=
  ws.foldl (fun st w =>
    match w with
    | .uplink i => (storeUplink i st.1, st.2)
    | .reading i => (st.1, storeReading i st.2)) st

/-- C5: when no device identity was resolved (`devEui` undefined, or the
falsy empty string), the handler issues no storage call — replaying its
writes leaves both tables unchanged — signals the drop via the
`up-missing` event, and still acknowledges the delivery with HTTP 200
"ok", not an error. -/
theorem handleLoRaWebhook_drop (p : Parsed)
    (h : p.devEui = none ∨ p.devEui = some "") :
    (handleLoRaWebhook p).writes = []
    ∧ (handleLoRaWebhook p).status = 200
    ∧ (handleLoRaWebhook p).body = "ok"
    ∧ (handleLoRaWebhook p).droppedNoDevice = true
    ∧ (∀ (t : UplinkTable) (tbl : List ReadingRow),
        applyWrites (handleLoRaWebhook p).writes (t, tbl) = (t, tbl)) := by
  rcases h with h | h <;>
    simp [handleLoRaWebhook, h, applyWrites]

/-- Concrete instantiation of `handleLoRaWebhook_drop` at a parsed document
with no device identity. -/
theorem handleLoRaWebhook_drop_witness :
    (handleLoRaWebhook
      { provider := "generic", devEui := none, devEuiB64 := none, deviceName := none,
        applicationId := none, applicationName := none, atIso := "t", deduplicationId := none,
        rssi := none, snr := none, battery_mv := none, meterValue := none,
        meterValueRaw := none, decodedObj := none, payloadObj := none }).writes = []
    ∧ (handleLoRaWebhook
      { provider := "generic", devEui := none, devEuiB64 := none, deviceName := none,
        applicationId := none, applicationName := none, atIso := "t", deduplicationId := none,
        rssi := none, snr := none, battery_mv := none, meterValue := none,
        meterValueRaw := none, decodedObj := none, payloadObj := none }).status = 200 := by
  have h := handleLoRaWebhook_drop
    { provider := "generic", devEui := none, devEuiB64 := none, deviceName := none,
      applicationId := none, applicationName := none, atIso := "t", deduplicationId := none,
      rssi := none, snr := none, battery_mv := none, meterValue := none,
      meterValueRaw := none, decodedObj := none, payloadObj := none }
    (Or.inl rfl)
  exact ⟨h.1, h.2.1⟩

/-! ### findFirstKeyDeep (part_000 lines 119-144)

The TS traversal must terminate even on self-referential or aliased
structures; inductive `JsVal` trees cannot express sharing or cycles, so
here the traversed document is a heap: a list of nodes addressed by index,
where arrays and objects hold addresses.  An address may point anywhere,
including back at an ancestor (a cycle).  A dangling address plays the
role of `undefined` (the `v == null` guard skips it, like the null node). -/

/-- A heap node: a scalar, null, an array of addresses, or an object whose
fields hold addresses. -/
inductive HNode where
  | prim
  | null
  | arr (elems : List ℕ)
  | obj (fields : List (String × ℕ))

/-- The `val != null` test on the value at address `a`. -/
def valNonNull (heap : List HNode) (a : ℕ) : Bool :=
  match heap[a]? with
  | some .null => false
  | some _ => true
  | none => false

/-- One pass over an object's entries (part_000 lines 137-140): the first
entry whose key is wanted and whose value is non-null is returned;
otherwise every entry's value is pushed, and the accumulator order makes
the last-pushed entry the next one popped, as with `Array.push`/`pop`. -/
def scanFields (heap : List HNode) (wanted : List String) (depth : ℕ) :
    List (String × ℕ) → List (ℕ × ℕ) → ℕ ⊕ List (ℕ × ℕ)
  | [], stacked => .inr stacked
  | (k, a) :: fs, stacked =>
    if wanted.contains k && valNonNull heap a then .inl a
    else scanFields heap wanted depth fs ((a, depth + 1) :: stacked)

/-- Number of heap addresses not yet visited; the first component of the
termination measure. -/
def unseenCount (heap : List HNode) (seen : List ℕ) : ℕ :=
  (List.range heap.length).countP (fun i => !(seen.contains i))

theorem countP_le_countP {α : Type} (p q : α → Bool)
    (himp : ∀ a, q a = true → p a = true) :
    ∀ l : List α, l.countP q ≤ l.countP p := by
  intro l
  induction l with
  | nil => exact le_refl _
  | cons a t ih =>
    rw [List.countP_cons, List.countP_cons]
    have h1 : (if true = true then (1 : ℕ) else 0) = 1 := rfl
    have h0 : (if false = true then (1 : ℕ) else 0) = 0 := rfl
    cases hq : q a with
    | true =>
      rw [himp a hq, h1]
      omega
    | false =>
      cases hp : p a with
      | true =>
        rw [h0, h1]
        omega
      | false =>
        rw [h0]
        omega

theorem countP_lt_countP {α : Type} (p q : α → Bool)
    (himp : ∀ a, q a = true → p a = true) (x : α) (hpx : p x = true) (hqx : q x = false) :
    ∀ l : List α, x ∈ l → l.countP q < l.countP p := by
  intro l
  induction l with
  | nil => intro hx; cases hx
  | cons a t ih =>
    intro hx
    rw [List.countP_cons, List.countP_cons]
    have h1 : (if true = true then (1 : ℕ) else 0) = 1 := rfl
    have h0 : (if false = true then (1 : ℕ) else 0) = 0 := rfl
    rcases List.mem_cons.mp hx with rfl | hx'
    · rw [hpx, hqx, h1, h0]
      have := countP_le_countP p q himp t
      omega
    · cases hq : q a with
      | true =>
        rw [himp a hq, h1]
        have := ih hx'
        omega
      | false =>
        cases hp : p a with
        | true =>
          rw [h0, h1]
          have := ih hx'
          omega
        | false =>
          rw [h0]
          have := ih hx'
          omega

theorem unseenCount_cons_lt (heap : List HNode) (seen : List ℕ) (v : ℕ)
    (hv : v < heap.length) (hs : seen.contains v = false) :
    unseenCount heap (v :: seen) < unseenCount heap seen := by
  apply countP_lt_countP (fun i => !(seen.contains i)) (fun i => !((v :: seen).contains i))
    ?_ v ?_ ?_ _ (List.mem_range.mpr hv)
  · intro a ha
    simp only [Bool.not_eq_true'] at ha ⊢
    simp only [List.contains_cons, Bool.or_eq_false_iff] at ha
    exact ha.2
  · show (!(seen.contains v)) = true
    rw [hs]
    rfl
  · show (!((v :: seen).contains v)) = false
    simp [List.contains_cons]

theorem unseenCount_dec_of_getElem (heap : List HNode) (seen : List ℕ) (v : ℕ)
    (c : HNode) (hv : heap[v]? = some c) (hs : ¬(seen.contains v = true)) :
    unseenCount heap (v :: seen) < unseenCount heap seen := by
  refine unseenCount_cons_lt heap seen v ?_ ?_
  · by_contra hc
    rw [List.getElem?_eq_none (le_of_not_lt hc)] at hv
    cases hv
  · cases hc : seen.contains v with
    | false => rfl
    | true => exact absurd hc hs

/-- The loop of `findFirstKeyDeep` (part_000 lines 124-141), carrying the
explicit stack (top first) and visited set, and additionally recording the
trace of processed `(address, depth)` pairs.  Termination holds on every
heap — cyclic ones included — because each iteration either shrinks the
stack or visits a previously unseen address. -/
def findGo (heap : List HNode) (wanted : List String) (maxDepth : ℕ) :
    List (ℕ × ℕ) → List ℕ → Option ℕ × List (ℕ × ℕ)
  | [], _ => (none, [])
  | (v, d) :: rest, seen =>
    match hv : heap[v]? with
    | none => findGo heap wanted maxDepth rest seen
    | some .null => findGo heap wanted maxDepth rest seen
    | some .prim =>
      if h : (seen.contains v || decide (maxDepth < d)) = true then
        findGo heap wanted maxDepth rest seen
      else
        let rt := findGo heap wanted maxDepth rest (v :: seen)
        (rt.1, (v, d) :: rt.2)
    | some (.arr elems) =>
      if h : (seen.contains v || decide (maxDepth < d)) = true then
        findGo heap wanted maxDepth rest seen
      else
        let rt := findGo heap wanted maxDepth
          (elems.reverse.map (fun a => (a, d + 1)) ++ rest) (v :: seen)
        (rt.1, (v, d) :: rt.2)
    | some (.obj fields) =>
      if h : (seen.contains v || decide (maxDepth < d)) = true then
        findGo heap wanted maxDepth rest seen
      else
        match scanFields heap wanted d fields [] with
        | .inl a => (some a, [(v, d)])
        | .inr stacked =>
          let rt := findGo heap wanted maxDepth (stacked ++ rest) (v :: seen)
          (rt.1, (v, d) :: rt.2)
  termination_by stack seen => (unseenCount heap seen, stack.length)
  decreasing_by
  all_goals first
    | exact Prod.Lex.right _ (by simp)
    | exact Prod.Lex.left _ _ (unseenCount_dec_of_getElem heap seen v _ hv
        (by simp only [Bool.or_eq_true, not_or] at h; exact h.1))

/-- `findFirstKeyDeep` (part_000 lines 119-144): depth-bounded keyword
search from the root address with visited-node tracking. -/
def findFirstKeyDeep (heap : List HNode) (root : ℕ) (keys : List String)
    (maxDepth : ℕ) : Option ℕ :=
  (findGo heap keys maxDepth [(root, 0)] []).1

/-- The same loop with an explicit step budget; `none` means the budget ran
out.  Termination of the unbudgeted loop is the statement that some finite
budget always suffices. -/
def findGoFuel (heap : List HNode) (wanted : List String) (maxDepth : ℕ) :
    ℕ → List (ℕ × ℕ) → List ℕ → Option (Option ℕ × List (ℕ × ℕ))
  | 0, _, _ => none
  | _ + 1, [], _ => some (none, [])
  | fuel + 1, (v, d) :: rest, seen =>
    match heap[v]? with
    | none => findGoFuel heap wanted maxDepth fuel rest seen
    | some .null => findGoFuel heap wanted maxDepth fuel rest seen
    | some .prim =>
      if (seen.contains v || decide (maxDepth < d)) = true then
        findGoFuel heap wanted maxDepth fuel rest seen
      else
        (findGoFuel heap wanted maxDepth fuel rest (v :: seen)).map
          (fun rt => (rt.1, (v, d) :: rt.2))
    | some (.arr elems) =>
      if (seen.contains v || decide (maxDepth < d)) = true then
        findGoFuel heap wanted maxDepth fuel rest seen
      else
        (findGoFuel heap wanted maxDepth fuel
            (elems.reverse.map (fun a => (a, d + 1)) ++ rest) (v :: seen)).map
          (fun rt => (rt.1, (v, d) :: rt.2))
    | some (.obj fields) =>
      if (seen.contains v || decide (maxDepth < d)) = true then
        findGoFuel heap wanted maxDepth fuel rest seen
      else
        match scanFields heap wanted d fields [] with
        | .inl a => some (some a, [(v, d)])
        | .inr stacked =>
          (findGoFuel heap wanted maxDepth fuel (stacked ++ rest) (v :: seen)).map
            (fun rt => (rt.1, (v, d) :: rt.2))

theorem findGo_nil (heap : List HNode) (wanted : List String) (maxDepth : ℕ)
    (seen : List ℕ) : findGo heap wanted maxDepth [] seen = (none, []) := by
  simp [findGo]

theorem findGo_none (heap : List HNode) (wanted : List String) (maxDepth : ℕ)
    (v d : ℕ) (rest : List (ℕ × ℕ)) (seen : List ℕ) (hv : heap[v]? = none) :
    findGo heap wanted maxDepth ((v, d) :: rest) seen
      = findGo heap wanted maxDepth rest seen := by
  simp only [findGo]
  split <;>
    first
      | rfl
      | rw [dif_pos h]
      | (rename_i heq; rw [hv] at heq; simp at heq)

theorem findGo_null (heap : List HNode) (wanted : List String) (maxDepth : ℕ)
    (v d : ℕ) (rest : List (ℕ × ℕ)) (seen : List ℕ) (hv : heap[v]? = some .null) :
    findGo heap wanted maxDepth ((v, d) :: rest) seen
      = findGo heap wanted maxDepth rest seen := by
  simp only [findGo]
  split <;>
    first
      | rfl
      | rw [dif_pos h]
      | (rename_i heq; rw [hv] at heq; simp at heq)

theorem findGo_skip (heap : List HNode) (wanted : List String) (maxDepth : ℕ)
    (v d : ℕ) (rest : List (ℕ × ℕ)) (seen : List ℕ) (c : HNode)
    (hv : heap[v]? = some c) (h : (seen.contains v || decide (maxDepth < d)) = true) :
    findGo heap wanted maxDepth ((v, d) :: rest) seen
      = findGo heap wanted maxDepth rest seen := by
  cases c <;>
    (simp only [findGo]
     split <;>
       first
         | rfl
         | rw [dif_pos h]
         | (rename_i heq; rw [hv] at heq; simp at heq))

theorem findGo_prim (heap : List HNode) (wanted : List String) (maxDepth : ℕ)
    (v d : ℕ) (rest : List (ℕ × ℕ)) (seen : List ℕ)
    (hv : heap[v]? = some .prim)
    (h : ¬((seen.contains v || decide (maxDepth < d)) = true)) :
    findGo heap wanted maxDepth ((v, d) :: rest) seen
      = ((findGo heap wanted maxDepth rest (v :: seen)).1,
          (v, d) :: (findGo heap wanted maxDepth rest (v :: seen)).2) := by
  simp only [findGo]
  split <;>
    first
      | (rename_i heq; rw [hv] at heq; simp at heq; done)
      | (rw [dif_neg h]; try rfl)

theorem findGo_arr (heap : List HNode) (wanted : List String) (maxDepth : ℕ)
    (v d : ℕ) (rest : List (ℕ × ℕ)) (seen : List ℕ) (elems : List ℕ)
    (hv : heap[v]? = some (.arr elems))
    (h : ¬((seen.contains v || decide (maxDepth < d)) = true)) :
    findGo heap wanted maxDepth ((v, d) :: rest) seen
      = ((findGo heap wanted maxDepth
            (elems.reverse.map (fun a => (a, d + 1)) ++ rest) (v :: seen)).1,
          (v, d) :: (findGo heap wanted maxDepth
            (elems.reverse.map (fun a => (a, d + 1)) ++ rest) (v :: seen)).2) := by
  simp only [findGo]
  split <;>
    first
      | (rename_i heq; rw [hv] at heq; simp at heq; done)
      | (rename_i heq
         rw [hv] at heq
         simp only [Option.some.injEq, HNode.arr.injEq] at heq
         subst heq
         rw [dif_neg h])

theorem findGo_obj_found (heap : List HNode) (wanted : List String) (maxDepth : ℕ)
    (v d : ℕ) (rest : List (ℕ × ℕ)) (seen : List ℕ) (fields : List (String × ℕ)) (a : ℕ)
    (hv : heap[v]? = some (.obj fields))
    (h : ¬((seen.contains v || decide (maxDepth < d)) = true))
    (hs : scanFields heap wanted d fields [] = .inl a) :
    findGo heap wanted maxDepth ((v, d) :: rest) seen = (some a, [(v, d)]) := by
  simp only [findGo]
  split <;>
    first
      | (rename_i heq; rw [hv] at heq; simp at heq; done)
      | (rename_i heq
         rw [hv] at heq
         simp only [Option.some.injEq, HNode.obj.injEq] at heq
         subst heq
         rw [dif_neg h, hs])

theorem findGo_obj_push (heap : List HNode) (wanted : List String) (maxDepth : ℕ)
    (v d : ℕ) (rest : List (ℕ × ℕ)) (seen : List ℕ) (fields : List (String × ℕ))
    (stacked : List (ℕ × ℕ))
    (hv : heap[v]? = some (.obj fields))
    (h : ¬((seen.contains v || decide (maxDepth < d)) = true))
    (hs : scanFields heap wanted d fields [] = .inr stacked) :
    findGo heap wanted maxDepth ((v, d) :: rest) seen
      = ((findGo heap wanted maxDepth (stacked ++ rest) (v :: seen)).1,
          (v, d) :: (findGo heap wanted maxDepth (stacked ++ rest) (v :: seen)).2) := by
  simp only [findGo]
  split <;>
    first
      | (rename_i heq; rw [hv] at heq; simp at heq; done)
      | (rename_i heq
         rw [hv] at heq
         simp only [Option.some.injEq, HNode.obj.injEq] at heq
         subst heq
         rw [dif_neg h, hs])

theorem findGo_fuel_agrees (heap : List HNode) (wanted : List String) (maxDepth : ℕ) :
    ∀ stack seen, ∃ fuel, findGoFuel heap wanted maxDepth fuel stack seen
      = some (findGo heap wanted maxDepth stack seen) := by
  intro stack seen
  induction stack, seen using findGo.induct heap wanted maxDepth with
  | case1 seen =>
    exact ⟨1, by rw [findGo_nil]; rfl⟩
  | case2 v d rest seen hv ih =>
    obtain ⟨fuel, hf⟩ := ih
    refine ⟨fuel + 1, ?_⟩
    rw [findGo_none heap wanted maxDepth v d rest seen hv,
      show findGoFuel heap wanted maxDepth (fuel + 1) ((v, d) :: rest) seen
        = findGoFuel heap wanted maxDepth fuel rest seen from by simp only [findGoFuel, hv]]
    exact hf
  | case3 v d rest seen hv ih =>
    obtain ⟨fuel, hf⟩ := ih
    refine ⟨fuel + 1, ?_⟩
    rw [findGo_null heap wanted maxDepth v d rest seen hv,
      show findGoFuel heap wanted maxDepth (fuel + 1) ((v, d) :: rest) seen
        = findGoFuel heap wanted maxDepth fuel rest seen from by simp only [findGoFuel, hv]]
    exact hf
  | case4 v d rest seen hv h ih =>
    obtain ⟨fuel, hf⟩ := ih
    refine ⟨fuel + 1, ?_⟩
    rw [findGo_skip heap wanted maxDepth v d rest seen _ hv h,
      show findGoFuel heap wanted maxDepth (fuel + 1) ((v, d) :: rest) seen
        = findGoFuel heap wanted maxDepth fuel rest seen from by
          simp only [findGoFuel, hv]
          rw [if_pos h]]
    exact hf
  | case5 v d rest seen hv h ih =>
    obtain ⟨fuel, hf⟩ := ih
    refine ⟨fuel + 1, ?_⟩
    rw [findGo_prim heap wanted maxDepth v d rest seen hv h,
      show findGoFuel heap wanted maxDepth (fuel + 1) ((v, d) :: rest) seen
        = (findGoFuel heap wanted maxDepth fuel rest (v :: seen)).map
            (fun rt => (rt.1, (v, d) :: rt.2)) from by
          simp only [findGoFuel, hv]
          rw [if_neg h]]
    rw [hf]
    rfl
  | case6 v d rest seen elems hv h ih =>
    obtain ⟨fuel, hf⟩ := ih
    refine ⟨fuel + 1, ?_⟩
    rw [findGo_skip heap wanted maxDepth v d rest seen _ hv h,
      show findGoFuel heap wanted maxDepth (fuel + 1) ((v, d) :: rest) seen
        = findGoFuel heap wanted maxDepth fuel rest seen from by
          simp only [findGoFuel, hv]
          rw [if_pos h]]
    exact hf
  | case7 v d rest seen elems hv h ih =>
    obtain ⟨fuel, hf⟩ := ih
    refine ⟨fuel + 1, ?_⟩
    rw [findGo_arr heap wanted maxDepth v d rest seen elems hv h,
      show findGoFuel heap wanted maxDepth (fuel + 1) ((v, d) :: rest) seen
        = (findGoFuel heap wanted maxDepth fuel
            (elems.reverse.map (fun a => (a, d + 1)) ++ rest) (v :: seen)).map
            (fun rt => (rt.1, (v, d) :: rt.2)) from by
          simp only [findGoFuel, hv]
          rw [if_neg h]]
    rw [hf]
    rfl
  | case8 v d rest seen fields hv h ih =>
    obtain ⟨fuel, hf⟩ := ih
    refine ⟨fuel + 1, ?_⟩
    rw [findGo_skip heap wanted maxDepth v d rest seen _ hv h,
      show findGoFuel heap wanted maxDepth (fuel + 1) ((v, d) :: rest) seen
        = findGoFuel heap wanted maxDepth fuel rest seen from by
          simp only [findGoFuel, hv]
          rw [if_pos h]]
    exact hf
  | case9 v d rest seen fields hv h a hsf =>
    refine ⟨1, ?_⟩
    rw [findGo_obj_found heap wanted maxDepth v d rest seen fields a hv h hsf,
      show findGoFuel heap wanted maxDepth 1 ((v, d) :: rest) seen
        = some (some a, [(v, d)]) from by
          simp only [findGoFuel, hv]
          rw [if_neg h, hsf]]
  | case10 v d rest seen fields hv h stacked hsf ih =>
    obtain ⟨fuel, hf⟩ := ih
    refine ⟨fuel + 1, ?_⟩
    rw [findGo_obj_push heap wanted maxDepth v d rest seen fields stacked hv h hsf,
      show findGoFuel heap wanted maxDepth (fuel + 1) ((v, d) :: rest) seen
        = (findGoFuel heap wanted maxDepth fuel (stacked ++ rest) (v :: seen)).map
            (fun rt => (rt.1, (v, d) :: rt.2)) from by
          simp only [findGoFuel, hv]
          rw [if_neg h, hsf]]
    rw [hf]
    rfl

theorem findGo_trace_depth (heap : List HNode) (wanted : List String) (maxDepth : ℕ) :
    ∀ stack seen, ∀ e ∈ (findGo heap wanted maxDepth stack seen).2, e.2 ≤ maxDepth := by
  intro stack seen
  induction stack, seen using findGo.induct heap wanted maxDepth with
  | case1 seen =>
    intro e he
    rw [findGo_nil] at he
    cases he
  | case2 v d rest seen hv ih =>
    intro e he
    rw [findGo_none heap wanted maxDepth v d rest seen hv] at he
    exact ih e he
  | case3 v d rest seen hv ih =>
    intro e he
    rw [findGo_null heap wanted maxDepth v d rest seen hv] at he
    exact ih e he
  | case4 v d rest seen hv h ih =>
    intro e he
    rw [findGo_skip heap wanted maxDepth v d rest seen _ hv h] at he
    exact ih e he
  | case5 v d rest seen hv h ih =>
    intro e he
    rw [findGo_prim heap wanted maxDepth v d rest seen hv h] at he
    rcases List.mem_cons.mp he with rfl | he'
    · simp only [Bool.or_eq_true, not_or, decide_eq_true_eq] at h
      exact le_of_not_lt h.2
    · exact ih e he'
  | case6 v d rest seen elems hv h ih =>
    intro e he
    rw [findGo_skip heap wanted maxDepth v d rest seen _ hv h] at he
    exact ih e he
  | case7 v d rest seen elems hv h ih =>
    intro e he
    rw [findGo_arr heap wanted maxDepth v d rest seen elems hv h] at he
    rcases List.mem_cons.mp he with rfl | he'
    · simp only [Bool.or_eq_true, not_or, decide_eq_true_eq] at h
      exact le_of_not_lt h.2
    · exact ih e he'
  | case8 v d rest seen fields hv h ih =>
    intro e he
    rw [findGo_skip heap wanted maxDepth v d rest seen _ hv h] at he
    exact ih e he
  | case9 v d rest seen fields hv h a hsf =>
    intro e he
    rw [findGo_obj_found heap wanted maxDepth v d rest seen fields a hv h hsf] at he
    rcases List.mem_cons.mp he with rfl | he'
    · simp only [Bool.or_eq_true, not_or, decide_eq_true_eq] at h
      exact le_of_not_lt h.2
    · cases he'
  | case10 v d rest seen fields hv h stacked hsf ih =>
    intro e he
    rw [findGo_obj_push heap wanted maxDepth v d rest seen fields stacked hv h hsf] at he
    rcases List.mem_cons.mp he with rfl | he'
    · simp only [Bool.or_eq_true, not_or, decide_eq_true_eq] at h
      exact le_of_not_lt h.2
    · exact ih e he'

/-- C9: the depth-bounded keyword search terminates on every heap —
including self-referential or aliased ones, since every address it
processes is added to the visited set — in the sense that some finite step
budget reproduces the unbudgeted result; every node it processes lies at
most `maxDepth` push-edges from the root; and on the literally
self-referential document `[arr [0]]` (an array containing itself) the
search terminates with no result. -/
theorem findFirstKeyDeep_terminates (heap : List HNode) (root : ℕ) (keys : List String)
    (maxDepth : ℕ) :
    (∃ fuel, findGoFuel heap keys maxDepth fuel [(root, 0)] []
        = some (findGo heap keys maxDepth [(root, 0)] []))
    ∧ (∀ e ∈ (findGo heap keys maxDepth [(root, 0)] []).2, e.2 ≤ maxDepth)
    ∧ findFirstKeyDeep heap root keys maxDepth
        = (findGo heap keys maxDepth [(root, 0)] []).1
    ∧ findFirstKeyDeep [HNode.arr [0]] 0 ["k"] 4 = none := by
  refine ⟨findGo_fuel_agrees heap keys maxDepth [(root, 0)] [],
    findGo_trace_depth heap keys maxDepth [(root, 0)] [], rfl, ?_⟩
  rw [findFirstKeyDeep,
    findGo_arr [HNode.arr [0]] ["k"] 4 0 0 [] [] [0] (by rfl) (by decide)]
  rw [show List.map (fun a => (a, 0 + 1)) [0].reverse ++ ([] : List (ℕ × ℕ)) = [(0, 1)]
    from rfl]
  rw [findGo_skip [HNode.arr [0]] ["k"] 4 0 1 [] [0] (HNode.arr [0]) (by rfl) (by decide),
    findGo_nil]

end TTN
